import Mathlib

/-!
# TextEditor: the text buffer, the render walk and the font loader of `src/Main.cpp`

A shallow embedding of the input callbacks, the per-frame render loop and the
PSF1 font expansion of `src/Main.cpp`, followed by theorems about them.

Conventions of the embedding.

* A `char` cell is represented by its byte pattern, a natural number below 256.
  Whether `char` is signed is implementation-defined in C++; every place where
  the source converts a `char` to an integer takes the signedness as the
  parameter `signedChar`.
* `size_t` values (`CursorPos`, vector sizes) are natural numbers: the cursor
  never exceeds `Message.size()`, which is below `max_size() < 2 ^ 64`, and the
  decrement is guarded by `CursorPos > 0`, so no operation on them wraps.
* `GLint` values are integers kept in the 32-bit two's-complement range: `x += FontSizeX`
  adds a `size_t` to a `GLint`, so the sum is formed in `size_t` and converted back to
  `GLint`, a reduction modulo `2 ^ 32` (`toInt32`, `addSizeT`).
* `GLfloat` is the IEEE 754 binary32 format. The conversion `(GLfloat)x` of a `GLint`
  yields the nearest value with a 24-bit significand, ties going to the even significand
  (`toGLfloat`); that value is again an integer and is kept as one. It is `x` itself for
  `|x| ≤ 2 ^ 24` and for every multiple of `2 ^ e` up to `2 ^ (24 + e)`.
* `assert` is the macro of `<cassert>` with `NDEBUG` not defined: a failed assertion
  aborts the process. A read beyond the end of a vector is undefined behaviour and is a
  result of its own, `LoadError.readPastEnd`.
-/

namespace TextEditor

/-! ## Text buffer and cursor (`Main.cpp` lines 57-58, 110-152) -/

/-- The globals `Message` (a `std::vector<char>`, in byte patterns) and `CursorPos`. -/
structure Editor where
  Message : List Nat
  CursorPos : Nat
  deriving DecidableEq, Repr

/-- The state at program start: `CursorPos = 0` and an empty `Message`. -/
def Editor.initial : Editor := { Message := [], CursorPos := 0 }

/-- The conversion `(char)chr` of an `unsigned int`: the low eight bits. -/
def toChar (chr : Nat) : Nat := chr % 256

/-- `v.insert(v.begin() + pos, c)` of `std::vector`, for `pos ≤ v.size()`. -/
def vectorInsert (v : List Nat) (pos : Nat) (c : Nat) : List Nat :=
  v.take pos ++ c :: v.drop pos

/-- `v.erase(v.begin() + pos)` of `std::vector`, for `pos < v.size()`. -/
def vectorErase (v : List Nat) (pos : Nat) : List Nat :=
  v.take pos ++ v.drop (pos + 1)

/-- Value of `GLFW_RELEASE` in `GLFW/glfw3.h`. -/
def GLFW_RELEASE : Int := 0
/-- Value of `GLFW_PRESS` in `GLFW/glfw3.h`. -/
def GLFW_PRESS : Int := 1
/-- Value of `GLFW_REPEAT` in `GLFW/glfw3.h`. -/
def GLFW_REPEAT : Int := 2
/-- Value of `GLFW_KEY_ENTER` in `GLFW/glfw3.h`. -/
def GLFW_KEY_ENTER : Int := 257
/-- Value of `GLFW_KEY_BACKSPACE` in `GLFW/glfw3.h`. -/
def GLFW_KEY_BACKSPACE : Int := 259
/-- Value of `GLFW_KEY_DELETE` in `GLFW/glfw3.h`. -/
def GLFW_KEY_DELETE : Int := 261
/-- Value of `GLFW_KEY_RIGHT` in `GLFW/glfw3.h`. -/
def GLFW_KEY_RIGHT : Int := 262
/-- Value of `GLFW_KEY_LEFT` in `GLFW/glfw3.h`. -/
def GLFW_KEY_LEFT : Int := 263

/-- The lambda given to `glfwSetCharCallback`: insert `(char)chr` at the cursor,
then increment the cursor. -/
def charCallback (s : Editor) (chr : Nat) : Editor :=
  { Message := vectorInsert s.Message s.CursorPos (toChar chr)
    CursorPos := s.CursorPos + 1 }

/-- The lambda given to `glfwSetKeyCallback`, with its `switch (key)`. -/
def keyCallback (s : Editor) (key action : Int) : Editor :=
  if action = GLFW_PRESS ∨ action = GLFW_REPEAT then
    if key = GLFW_KEY_ENTER then
      { Message := vectorInsert s.Message s.CursorPos 10
        CursorPos := s.CursorPos + 1 }
    else if key = GLFW_KEY_BACKSPACE then
      if s.CursorPos > 0 then
        { Message := vectorErase s.Message (s.CursorPos - 1)
          CursorPos := s.CursorPos - 1 }
      else s
    else if key = GLFW_KEY_DELETE then
      if s.CursorPos < s.Message.length then
        { s with Message := vectorErase s.Message s.CursorPos }
      else s
    else if key = GLFW_KEY_LEFT then
      if s.CursorPos > 0 then { s with CursorPos := s.CursorPos - 1 } else s
    else if key = GLFW_KEY_RIGHT then
      if s.CursorPos < s.Message.length then { s with CursorPos := s.CursorPos + 1 } else s
    else s
  else s

/-- An input event delivered by `glfwPollEvents` to one of the two callbacks. -/
inductive Event where
  | char (chr : Nat)
  | key (key action : Int)
  deriving DecidableEq, Repr

/-- One input handler step. -/
def handle (s : Editor) : Event → Editor
  | .char chr => charCallback s chr
  | .key k a => keyCallback s k a

/-- The state after a sequence of input events, from the initial state. -/
def run (es : List Event) : Editor := es.foldl handle Editor.initial

/-- The cursor invariant `0 ≤ CursorPos ≤ Message.size()`. -/
def CursorInv (s : Editor) : Prop := 0 ≤ s.CursorPos ∧ s.CursorPos ≤ s.Message.length

instance (s : Editor) : Decidable (CursorInv s) := by unfold CursorInv; infer_instance

/-! ## Integer conversions -/

/-- The constant `FontSizeX`. -/
def FontSizeX : Nat := 8

/-- The constant `FontSizeY`. -/
def FontSizeY : Nat := 16

/-- Conversion of an integer to a 32-bit `int` (`GLint`): reduction modulo `2 ^ 32` into
the range `-2 ^ 31 ..< 2 ^ 31`. -/
def toInt32 (n : Int) : Int := (n + 2 ^ 31) % 2 ^ 32 - 2 ^ 31

/-- The statement `x += k` for a `GLint x` and a `size_t k` (`x += FontSizeX`,
`y += FontSizeY`): `x` is converted to `size_t`, the sum is taken modulo `2 ^ 64` and
converted back to `GLint`. -/
def addSizeT (x : Int) (k : Nat) : Int := toInt32 ((x % 2 ^ 64 + (k : Int)) % 2 ^ 64)

/-- Integer promotion of a `char` with byte pattern `b`: the pattern itself where `char`
is unsigned, its sign extension where `char` is signed. -/
def charToInt (signedChar : Bool) (b : Nat) : Int :=
  if signedChar = true ∧ 128 ≤ b then (b : Int) - 256 else (b : Int)

/-- The spacing of the binary32 values around a magnitude `a`: 1 below `2 ^ 24`, and
doubled for every halving of `a` that is needed to come below `2 ^ 24`. The first argument
bounds the number of halvings; eight are enough for every magnitude below `2 ^ 32`. -/
def float32Ulp : Nat → Nat → Nat
  | 0, _ => 1
  | fuel + 1, a => if a < 2 ^ 24 then 1 else 2 * float32Ulp fuel (a / 2)

/-- Rounding of a magnitude below `2 ^ 32` to the nearest binary32 value, ties to the even
significand. -/
def roundToFloat32 (a : Nat) : Nat :=
  if 2 * (a % float32Ulp 8 a) < float32Ulp 8 a then
    a / float32Ulp 8 a * float32Ulp 8 a
  else if float32Ulp 8 a < 2 * (a % float32Ulp 8 a) then
    (a / float32Ulp 8 a + 1) * float32Ulp 8 a
  else if a / float32Ulp 8 a % 2 = 0 then
    a / float32Ulp 8 a * float32Ulp 8 a
  else
    (a / float32Ulp 8 a + 1) * float32Ulp 8 a

/-- The conversion `(GLfloat)x` of a `GLint x` (`(GLfloat)x`, `(GLfloat)y` in the calls of
`glProgramUniform2f`): the sign and the rounded magnitude, rounding being to nearest with
ties to even, the default rounding of IEEE 754 arithmetic. -/
def toGLfloat (n : Int) : Int :=
  if n < 0 then -(roundToFloat32 n.natAbs : Int) else (roundToFloat32 n.natAbs : Int)

/-- The 32 bits of an `int`, as a natural number below `2 ^ 32`. -/
def intBits (v : Int) : Nat := (v % 2 ^ 32).toNat

/-! ## Vertex shader (`Main.cpp` lines 23-26) -/

/-- The vertical texture coordinate computed by `VertexShaderSource`:
`v_TexCoord.y = (a_TexCoord.y + u_Character) / 256.0`. The operands are small integers,
on which the shader's floating-point arithmetic is exact, so the value is given as a
rational number. -/
def vTexCoordY (aTexCoordY : Int) (uCharacter : Int) : ℚ :=
  ((aTexCoordY : ℚ) + (uCharacter : ℚ)) / 256

/-! ## Render walk (`Main.cpp` lines 324-352) -/

/-- One `glDrawElements` call of the walk, with the uniforms `u_Character` and
`u_Position` in effect at the call. The position is the pair of `GLfloat` values given to
`glProgramUniform2f`, each of them an integer. -/
structure Quad where
  uCharacter : Int
  posX : Int
  posY : Int
  deriving DecidableEq, Repr

/-- The state of the render loop: the pen `x`, `y` (of type `GLint`), the uniforms of the
shader program (`u_Position` in `GLfloat` values) and the draw calls issued so far in the
frame. -/
structure Frame where
  x : Int
  y : Int
  uCharacter : Int
  uPosition : Int × Int
  drawn : List Quad
  deriving DecidableEq, Repr

/-- The state at the top of the walk: `x = 0`, `y = 0`, nothing drawn; the uniforms are
those left by the previous frame (the shader's defaults in the first frame). -/
def Frame.start (uCharacter : Int) (uPosition : Int × Int) : Frame :=
  { x := 0, y := 0, uCharacter := uCharacter, uPosition := uPosition, drawn := [] }

/-- The call `glProgramUniform1i(shader, u_Character, v)`. -/
def setCharacter (f : Frame) (v : Int) : Frame := { f with uCharacter := v }

/-- The three statements that draw one quad: set `u_Position` to
`((GLfloat)x, (GLfloat)y)`, call `glDrawElements`, and `x += FontSizeX`. -/
def drawQuad (f : Frame) : Frame :=
  { f with
    uPosition := (toGLfloat f.x, toGLfloat f.y)
    drawn := f.drawn ++
      [{ uCharacter := f.uCharacter, posX := toGLfloat f.x, posY := toGLfloat f.y }]
    x := addSizeT f.x FontSizeX }

/-- The body of `for (auto& chr : Message)`: the `switch (chr)` on the promoted `char`. -/
def renderChar (signedChar : Bool) (f : Frame) (chr : Nat) : Frame :=
  if charToInt signedChar chr = 10 then
    { f with x := 0, y := addSizeT f.y FontSizeY }
  else if charToInt signedChar chr = 13 then
    f
  else if charToInt signedChar chr = 9 then
    (List.range 4).foldl (fun g _ => drawQuad g) (setCharacter f 32)
  else
    drawQuad (setCharacter f (charToInt signedChar chr))

/-- The render walk over a buffer, from a given loop state. -/
def renderFrom (signedChar : Bool) (f : Frame) (msg : List Nat) : Frame :=
  msg.foldl (renderChar signedChar) f

/-- The render walk of one frame over `Message`. -/
def renderWalk (signedChar : Bool) (uCharacter : Int) (uPosition : Int × Int)
    (msg : List Nat) : Frame :=
  renderFrom signedChar (Frame.start uCharacter uPosition) msg

/-- The pen `(x, y)` after each byte of the buffer, in buffer order. -/
def penTrace (signedChar : Bool) (f : Frame) : List Nat → List (Int × Int)
  | [] => []
  | c :: cs => ((renderChar signedChar f c).x, (renderChar signedChar f c).y)
      :: penTrace signedChar (renderChar signedChar f c) cs

/-- The number of quads the walk draws for one byte: none for `'\n'` and `'\r'`, four for
`'\t'`, one for any other byte. -/
def quadsOfByte (b : Nat) : Nat :=
  if b = 10 ∨ b = 13 then 0 else if b = 9 then 4 else 1

/-- The number of quads the walk draws for a run of bytes. -/
def quadCount (bs : List Nat) : Nat := (bs.map quadsOfByte).sum

/-- The part of a run of bytes that follows its last `'\n'` (the whole run when it has
none). -/
def lastLine (bs : List Nat) : List Nat :=
  bs.foldl (fun acc b => if b = 10 then [] else acc ++ [b]) []

/-- The selectors the walk is to pass for one byte: none for `'\n'` and `'\r'`, four times
the space code for `'\t'`, the promoted byte otherwise. -/
def selectorsOfByte (signedChar : Bool) (b : Nat) : List Int :=
  if b = 10 ∨ b = 13 then [] else if b = 9 then [32, 32, 32, 32]
  else [charToInt signedChar b]

/-! ## Font loader (`Main.cpp` lines 245-290) -/

/-- The ways the loader stops without a bitmap: a failed `assert` aborts the process; a
read beyond the end of `fontFileBytes` is undefined behaviour that no statement of the
loader checks for. -/
inductive LoadError where
  | assertFailed
  | readPastEnd
  deriving DecidableEq, Repr

/-- A read of one `char` through the pointer `font`, at a byte offset from
`fontFileBytes.data()`. -/
def readChar (fontFileBytes : List Nat) (offset : Nat) : Except LoadError Nat :=
  match fontFileBytes[offset]? with
  | some b => .ok b
  | none => .error .readPastEnd

/-- The macro `assert` of `<cassert>`, with `NDEBUG` not defined. -/
def assert (c : Bool) : Except LoadError Unit :=
  if c then .ok () else .error .assertFailed

/-- The test `(*chr & (0b10000000 >> x)) > 0` on the promoted `char`, in 32-bit two's
complement. -/
def bitTest (signedChar : Bool) (chr : Nat) (x : Nat) : Bool :=
  decide (0 < toInt32 (Nat.land (intBits (charToInt signedChar chr)) (0b10000000 >>> x) : Nat))

/-- The four bytes written for one pixel: `255, 255, 255, 255` or `0, 0, 0, 0`. -/
def pixelBytes (signedChar : Bool) (chr : Nat) (x : Nat) : List Nat :=
  if bitTest signedChar chr x then [255, 255, 255, 255] else [0, 0, 0, 0]

/-- The loop `for (x = 0; x < FontSizeX; x++)` for the row whose byte is at `offset`:
each turn reads `*chr` and writes four bytes. -/
def expandRow (signedChar : Bool) (fontFileBytes : List Nat) (offset : Nat) :
    Except LoadError (List Nat) := do
  let ps ← (List.range FontSizeX).mapM (fun x => do
    let c ← readChar fontFileBytes offset
    pure (pixelBytes signedChar c x))
  pure ps.flatten

/-- The loop `for (y = 0; y < FontSizeY; y++)` for glyph `i`: `chr` starts at
`&font->GlyphBuffer[i * FontSizeY]`, that is at byte offset `4 + i * FontSizeY`, and moves
on by one each turn. -/
def expandGlyph (signedChar : Bool) (fontFileBytes : List Nat) (i : Nat) :
    Except LoadError (List Nat) := do
  let rows ← (List.range FontSizeY).mapM (fun y =>
    expandRow signedChar fontFileBytes (4 + i * FontSizeY + y))
  pure rows.flatten

/-- The local `size_t width = FontSizeX` of the loader. -/
def width : Nat := FontSizeX

/-- The local `size_t height = FontSizeY * 256` of the loader. -/
def height : Nat := FontSizeY * 256

/-- The loop `for (i = 0; i < 256; i++)`: the bytes written by `pixels[pixelIndex++] = ...`
from `pixelIndex = 0` on, in the order of `pixelIndex`. The array `pixels` has
`width * height * 4` cells. -/
def expandFont (signedChar : Bool) (fontFileBytes : List Nat) : Except LoadError (List Nat) := do
  let glyphs ← (List.range 256).mapM (expandGlyph signedChar fontFileBytes)
  pure glyphs.flatten

/-- The lambda that builds `characterTextureAtlas`, from the bytes of the opened font file
(`fontFileBytes`) to the contents of `pixels` handed to `glTextureSubImage2D`. The header
fields are read through `font`: `MagicBytes` at byte offsets 0 and 1, `Mode` at 2,
`CharSize` at 3, `GlyphBuffer` from 4 on. The comparison `font->CharSize == FontSizeY` is
made in `size_t`. -/
def characterTextureAtlas (signedChar : Bool) (fontFileBytes : List Nat) :
    Except LoadError (List Nat) := do
  let magic0 ← readChar fontFileBytes 0
  assert (decide (charToInt signedChar magic0 = 0x36))
  let magic1 ← readChar fontFileBytes 1
  assert (decide (charToInt signedChar magic1 = 0x04))
  let charSize ← readChar fontFileBytes 3
  assert (decide (charToInt signedChar charSize % 2 ^ 64 = (FontSizeY : Int)))
  let mode ← readChar fontFileBytes 2
  assert (decide (charToInt signedChar mode = 2))
  expandFont signedChar fontFileBytes

/-! ## Theorems: text buffer -/

/-- The model of `erase` is the library's removal of the cell at an index. -/
theorem vectorErase_eq_eraseIdx (v : List Nat) (pos : Nat) :
    vectorErase v pos = v.eraseIdx pos := by
  rw [vectorErase, List.eraseIdx_eq_take_drop_succ]

/-- The model of `insert` is the library's insertion of a cell at an index. -/
theorem vectorInsert_eq_insertIdx (v : List Nat) (pos c : Nat) (h : pos ≤ v.length) :
    vectorInsert v pos c = v.insertIdx pos c := by
  induction v generalizing pos with
  | nil =>
    have : pos = 0 := by simpa using h
    subst this
    rfl
  | cons a v ih =>
    cases pos with
    | zero => rfl
    | succ n =>
      have hn : n ≤ v.length := by simpa using h
      simp only [vectorInsert, List.take_succ_cons, List.drop_succ_cons, List.cons_append,
        List.insertIdx_succ_cons]
      congr 1
      exact ih n hn

theorem vectorInsert_length (v : List Nat) (pos c : Nat) :
    (vectorInsert v pos c).length = v.length + 1 := by
  simp [vectorInsert]
  omega

theorem vectorErase_length (v : List Nat) (pos : Nat) (h : pos < v.length) :
    (vectorErase v pos).length = v.length - 1 := by
  simp [vectorErase]
  omega

theorem charCallback_inv (s : Editor) (chr : Nat) (h : CursorInv s) :
    CursorInv (charCallback s chr) := by
  unfold CursorInv at *
  simp [charCallback, vectorInsert_length]
  omega

theorem keyCallback_inv (s : Editor) (key action : Int) (h : CursorInv s) :
    CursorInv (keyCallback s key action) := by
  unfold CursorInv at *
  unfold keyCallback
  split_ifs with h1 h2 h3 h4 h5 h6 h7 h8 h9
  · simp only [vectorInsert_length]; omega
  · simp only [vectorErase_length _ _ (show s.CursorPos - 1 < s.Message.length by omega)]
    omega
  · exact h
  · simp only [vectorErase_length _ _ h6]; omega
  · exact h
  · simp only; omega
  · exact h
  · simp only; omega
  · exact h
  · exact h
  · exact h

theorem handle_inv (s : Editor) (e : Event) (h : CursorInv s) : CursorInv (handle s e) := by
  cases e with
  | char chr => exact charCallback_inv s chr h
  | key k a => exact keyCallback_inv s k a h

theorem foldl_handle_inv (es : List Event) (s : Editor) (h : CursorInv s) :
    CursorInv (es.foldl handle s) := by
  induction es generalizing s with
  | nil => exact h
  | cons e es ih => exact ih _ (handle_inv s e h)

theorem vectorErase_getElem?_lt (v : List Nat) (pos i : Nat) (h : pos < v.length) (hi : i < pos) :
    (vectorErase v pos)[i]? = v[i]? := by
  unfold vectorErase
  rw [List.getElem?_append_left (by simp; omega)]
  simp [List.getElem?_take, hi]

theorem vectorErase_getElem?_ge (v : List Nat) (pos i : Nat) (h : pos < v.length) (hi : pos ≤ i) :
    (vectorErase v pos)[i]? = v[i + 1]? := by
  unfold vectorErase
  rw [List.getElem?_append_right (by simp; omega)]
  simp only [List.length_take, List.getElem?_drop]
  congr 1
  omega

theorem foldl_charCallback (bs : List Nat) (buf : List Nat) (c : Nat) (hc : c ≤ buf.length)
    (hbs : ∀ b ∈ bs, b < 256) :
    bs.foldl charCallback ⟨buf, c⟩ = ⟨buf.take c ++ bs ++ buf.drop c, c + bs.length⟩ := by
  induction bs generalizing buf c with
  | nil => simp
  | cons b bs ih =>
    have hb : b < 256 := hbs b (List.mem_cons_self _ _)
    have hbs2 : ∀ x ∈ bs, x < 256 := fun x hx => hbs x (List.mem_cons_of_mem _ hx)
    simp only [List.foldl_cons, charCallback, toChar, Nat.mod_eq_of_lt hb]
    rw [ih _ _ (by rw [vectorInsert_length]; omega) hbs2]
    have h1 : List.take (c + 1) (vectorInsert buf c b) = List.take c buf ++ [b] := by
      unfold vectorInsert
      rw [List.take_append_eq_append_take]
      simp [List.take_take, Nat.min_eq_left hc]
    have h2 : List.drop (c + 1) (vectorInsert buf c b) = List.drop c buf := by
      unfold vectorInsert
      rw [List.drop_append_eq_append_drop]
      simp [Nat.min_eq_left hc]
    rw [h1, h2]
    simp
    omega

/-! ### The claims about the text buffer -/

/-- C1: the cursor invariant `0 ≤ CursorPos ≤ Message.size()` holds in the initial state,
is preserved by the character callback and by the key callback for every key and every
action, and so holds after every sequence of input events. -/
theorem cursor_invariant :
    CursorInv Editor.initial ∧
    (∀ (s : Editor) (chr : Nat), CursorInv s → CursorInv (charCallback s chr)) ∧
    (∀ (s : Editor) (key action : Int), CursorInv s → CursorInv (keyCallback s key action)) ∧
    (∀ es : List Event, CursorInv (run es)) := by
  have h0 : CursorInv Editor.initial := by simp [CursorInv, Editor.initial]
  exact ⟨h0, charCallback_inv, keyCallback_inv, fun es => foldl_handle_inv es _ h0⟩

/-- C1 at a concrete run of events and at one Backspace step. -/
theorem cursor_invariant_witness :
    CursorInv (run [.char 104, .char 105, .key GLFW_KEY_LEFT GLFW_PRESS,
      .key GLFW_KEY_BACKSPACE GLFW_REPEAT, .key GLFW_KEY_DELETE GLFW_PRESS,
      .key GLFW_KEY_DELETE GLFW_PRESS, .key GLFW_KEY_RIGHT GLFW_RELEASE]) ∧
    CursorInv (keyCallback ⟨[97, 98], 2⟩ GLFW_KEY_BACKSPACE GLFW_PRESS) :=
  ⟨cursor_invariant.2.2.2 _, cursor_invariant.2.2.1 ⟨[97, 98], 2⟩ _ _ (by decide)⟩

/-- C2: feeding the bytes `bs` one by one to the character callback from a state
`(buf, c)` with `c ≤ |buf|` gives the buffer `take c buf ++ bs ++ drop c buf` and the
cursor `c + |bs|`; from the initial state the buffer is `bs` and the cursor `|bs|`; a
single insert puts the byte at index `c`, keeps the cells before it, moves the cells from
index `c` on up by one, and advances the cursor by one. -/
theorem insertion (buf : List Nat) (c : Nat) (bs : List Nat) (hc : c ≤ buf.length)
    (hbs : ∀ b ∈ bs, b < 256) :
    bs.foldl charCallback ⟨buf, c⟩ = ⟨buf.take c ++ bs ++ buf.drop c, c + bs.length⟩ ∧
    bs.foldl charCallback Editor.initial = ⟨bs, bs.length⟩ ∧
    (∀ b, b < 256 →
      (charCallback ⟨buf, c⟩ b).CursorPos = c + 1 ∧
      (charCallback ⟨buf, c⟩ b).Message = buf.take c ++ b :: buf.drop c ∧
      (charCallback ⟨buf, c⟩ b).Message[c]? = some b ∧
      (∀ i, i < c → (charCallback ⟨buf, c⟩ b).Message[i]? = buf[i]?) ∧
      (∀ i, c ≤ i → (charCallback ⟨buf, c⟩ b).Message[i + 1]? = buf[i]?)) := by
  refine ⟨foldl_charCallback bs buf c hc hbs, ?_, ?_⟩
  · have h := foldl_charCallback bs [] 0 (Nat.le_refl _) hbs
    simpa [Editor.initial] using h
  · intro b hb
    have hlen : (List.take c buf).length = c := by simp [Nat.min_eq_left hc]
    refine ⟨rfl, ?_, ?_, ?_, ?_⟩
    · simp [charCallback, vectorInsert, toChar, Nat.mod_eq_of_lt hb]
    · simp only [charCallback, vectorInsert, toChar, Nat.mod_eq_of_lt hb]
      rw [List.getElem?_append_right (by omega)]
      simp [hlen]
    · intro i hi
      simp only [charCallback, vectorInsert, toChar, Nat.mod_eq_of_lt hb]
      rw [List.getElem?_append_left (by omega)]
      simp [List.getElem?_take, hi]
    · intro i hi
      simp only [charCallback, vectorInsert, toChar, Nat.mod_eq_of_lt hb]
      rw [List.getElem?_append_right (by omega)]
      have : i + 1 - (List.take c buf).length = (i - c) + 1 := by omega
      rw [this, List.getElem?_cons_succ, List.getElem?_drop]
      congr 1
      omega

/-- C2 at the buffer `abc` with the cursor at 1 and the bytes `hi`. -/
theorem insertion_witness :
    [104, 105].foldl charCallback ⟨[97, 98, 99], 1⟩
        = ⟨[97, 98, 99].take 1 ++ [104, 105] ++ [97, 98, 99].drop 1, 1 + [104, 105].length⟩ ∧
    [104, 105].foldl charCallback Editor.initial = ⟨[104, 105], [104, 105].length⟩ ∧
    (∀ b, b < 256 →
      (charCallback ⟨[97, 98, 99], 1⟩ b).CursorPos = 1 + 1 ∧
      (charCallback ⟨[97, 98, 99], 1⟩ b).Message
        = [97, 98, 99].take 1 ++ b :: [97, 98, 99].drop 1 ∧
      (charCallback ⟨[97, 98, 99], 1⟩ b).Message[1]? = some b ∧
      (∀ i, i < 1 → (charCallback ⟨[97, 98, 99], 1⟩ b).Message[i]? = [97, 98, 99][i]?) ∧
      (∀ i, 1 ≤ i → (charCallback ⟨[97, 98, 99], 1⟩ b).Message[i + 1]? = [97, 98, 99][i]?)) :=
  insertion [97, 98, 99] 1 [104, 105] (by decide) (by decide)

/-- C3: Backspace with action press or repeat, in a state `(buf, c)` with `c ≤ |buf|`:
when `c = 0` the state is unchanged; otherwise the cursor becomes `c - 1` and the buffer
loses exactly the cell at index `c - 1` (the cells before it stay, the cells after it move
down by one, the length drops by one). -/
theorem deleteBeforeCursor (buf : List Nat) (c : Nat) (action : Int) (hc : c ≤ buf.length)
    (ha : action = GLFW_PRESS ∨ action = GLFW_REPEAT) :
    (c = 0 → keyCallback ⟨buf, c⟩ GLFW_KEY_BACKSPACE action = ⟨buf, c⟩) ∧
    (0 < c →
      (keyCallback ⟨buf, c⟩ GLFW_KEY_BACKSPACE action).CursorPos = c - 1 ∧
      (keyCallback ⟨buf, c⟩ GLFW_KEY_BACKSPACE action).Message
        = buf.take (c - 1) ++ buf.drop c ∧
      (keyCallback ⟨buf, c⟩ GLFW_KEY_BACKSPACE action).Message.length = buf.length - 1 ∧
      (∀ i, i < c - 1 →
        (keyCallback ⟨buf, c⟩ GLFW_KEY_BACKSPACE action).Message[i]? = buf[i]?) ∧
      (∀ i, c - 1 ≤ i →
        (keyCallback ⟨buf, c⟩ GLFW_KEY_BACKSPACE action).Message[i]? = buf[i + 1]?)) := by
  have hk : keyCallback ⟨buf, c⟩ GLFW_KEY_BACKSPACE action
      = if c > 0 then ⟨vectorErase buf (c - 1), c - 1⟩ else ⟨buf, c⟩ := by
    unfold keyCallback
    rw [if_pos ha, if_neg (by decide), if_pos rfl]
  constructor
  · intro h0
    rw [hk, if_neg (by omega)]
  · intro hpos
    rw [hk, if_pos hpos]
    have hlt : c - 1 < buf.length := by omega
    refine ⟨rfl, ?_, vectorErase_length _ _ hlt, ?_, ?_⟩
    · simp only [vectorErase]
      rw [Nat.sub_add_cancel hpos]
    · intro i hi
      exact vectorErase_getElem?_lt _ _ _ hlt hi
    · intro i hi
      exact vectorErase_getElem?_ge _ _ _ hlt hi

/-- C3 at the buffer `abc` with the cursor at 2 and a Backspace press. -/
theorem deleteBeforeCursor_witness :
    ((2 : Nat) = 0 → keyCallback ⟨[97, 98, 99], 2⟩ GLFW_KEY_BACKSPACE GLFW_PRESS
        = ⟨[97, 98, 99], 2⟩) ∧
    (0 < 2 →
      (keyCallback ⟨[97, 98, 99], 2⟩ GLFW_KEY_BACKSPACE GLFW_PRESS).CursorPos = 2 - 1 ∧
      (keyCallback ⟨[97, 98, 99], 2⟩ GLFW_KEY_BACKSPACE GLFW_PRESS).Message
        = [97, 98, 99].take (2 - 1) ++ [97, 98, 99].drop 2 ∧
      (keyCallback ⟨[97, 98, 99], 2⟩ GLFW_KEY_BACKSPACE GLFW_PRESS).Message.length
        = [97, 98, 99].length - 1 ∧
      (∀ i, i < 2 - 1 →
        (keyCallback ⟨[97, 98, 99], 2⟩ GLFW_KEY_BACKSPACE GLFW_PRESS).Message[i]?
          = [97, 98, 99][i]?) ∧
      (∀ i, 2 - 1 ≤ i →
        (keyCallback ⟨[97, 98, 99], 2⟩ GLFW_KEY_BACKSPACE GLFW_PRESS).Message[i]?
          = [97, 98, 99][i + 1]?)) :=
  deleteBeforeCursor [97, 98, 99] 2 GLFW_PRESS (by decide) (Or.inl rfl)

/-- C4: Delete with action press or repeat, in a state `(buf, c)` with `c ≤ |buf|`:
when `c = |buf|` the state is unchanged; otherwise the cursor is still `c` and the buffer
loses exactly the cell at index `c` (the cells before it stay, the cells after it move
down by one, the length drops by one). -/
theorem deleteAtCursor (buf : List Nat) (c : Nat) (action : Int) (hc : c ≤ buf.length)
    (ha : action = GLFW_PRESS ∨ action = GLFW_REPEAT) :
    (c = buf.length → keyCallback ⟨buf, c⟩ GLFW_KEY_DELETE action = ⟨buf, c⟩) ∧
    (c ≠ buf.length →
      (keyCallback ⟨buf, c⟩ GLFW_KEY_DELETE action).CursorPos = c ∧
      (keyCallback ⟨buf, c⟩ GLFW_KEY_DELETE action).Message
        = buf.take c ++ buf.drop (c + 1) ∧
      (keyCallback ⟨buf, c⟩ GLFW_KEY_DELETE action).Message.length = buf.length - 1 ∧
      (∀ i, i < c →
        (keyCallback ⟨buf, c⟩ GLFW_KEY_DELETE action).Message[i]? = buf[i]?) ∧
      (∀ i, c ≤ i →
        (keyCallback ⟨buf, c⟩ GLFW_KEY_DELETE action).Message[i]? = buf[i + 1]?)) := by
  have hk : keyCallback ⟨buf, c⟩ GLFW_KEY_DELETE action
      = if c < buf.length then ⟨vectorErase buf c, c⟩ else ⟨buf, c⟩ := by
    unfold keyCallback
    rw [if_pos ha, if_neg (by decide), if_neg (by decide), if_pos rfl]
  constructor
  · intro h0
    rw [hk, if_neg (by omega)]
  · intro hne
    have hlt : c < buf.length := by omega
    rw [hk, if_pos hlt]
    refine ⟨rfl, rfl, vectorErase_length _ _ hlt, ?_, ?_⟩
    · intro i hi
      exact vectorErase_getElem?_lt _ _ _ hlt hi
    · intro i hi
      exact vectorErase_getElem?_ge _ _ _ hlt hi

/-- C4 at the buffer `abc` with the cursor at 1 and a Delete repeat. -/
theorem deleteAtCursor_witness :
    ((1 : Nat) = [97, 98, 99].length →
      keyCallback ⟨[97, 98, 99], 1⟩ GLFW_KEY_DELETE GLFW_REPEAT = ⟨[97, 98, 99], 1⟩) ∧
    ((1 : Nat) ≠ [97, 98, 99].length →
      (keyCallback ⟨[97, 98, 99], 1⟩ GLFW_KEY_DELETE GLFW_REPEAT).CursorPos = 1 ∧
      (keyCallback ⟨[97, 98, 99], 1⟩ GLFW_KEY_DELETE GLFW_REPEAT).Message
        = [97, 98, 99].take 1 ++ [97, 98, 99].drop (1 + 1) ∧
      (keyCallback ⟨[97, 98, 99], 1⟩ GLFW_KEY_DELETE GLFW_REPEAT).Message.length
        = [97, 98, 99].length - 1 ∧
      (∀ i, i < 1 →
        (keyCallback ⟨[97, 98, 99], 1⟩ GLFW_KEY_DELETE GLFW_REPEAT).Message[i]?
          = [97, 98, 99][i]?) ∧
      (∀ i, 1 ≤ i →
        (keyCallback ⟨[97, 98, 99], 1⟩ GLFW_KEY_DELETE GLFW_REPEAT).Message[i]?
          = [97, 98, 99][i + 1]?)) :=
  deleteAtCursor [97, 98, 99] 1 GLFW_REPEAT (by decide) (Or.inr rfl)

/-- C9: with action press or repeat, in a state `(buf, c)` with `c ≤ |buf|`: Left then
Right gives the cursor `c` again when `0 < c`, Right then Left gives the cursor `c` again
when `c < |buf|`; Left at `c = 0` and Right at `c = |buf|` leave the state as it is; and
neither move changes the buffer. -/
theorem cursor_move_round_trip (buf : List Nat) (c : Nat) (a1 a2 : Int) (hc : c ≤ buf.length)
    (h1 : a1 = GLFW_PRESS ∨ a1 = GLFW_REPEAT) (h2 : a2 = GLFW_PRESS ∨ a2 = GLFW_REPEAT) :
    (0 < c →
      keyCallback (keyCallback ⟨buf, c⟩ GLFW_KEY_LEFT a1) GLFW_KEY_RIGHT a2 = ⟨buf, c⟩) ∧
    (c < buf.length →
      keyCallback (keyCallback ⟨buf, c⟩ GLFW_KEY_RIGHT a1) GLFW_KEY_LEFT a2 = ⟨buf, c⟩) ∧
    (c = 0 → keyCallback ⟨buf, c⟩ GLFW_KEY_LEFT a1 = ⟨buf, 0⟩) ∧
    (c = buf.length → keyCallback ⟨buf, c⟩ GLFW_KEY_RIGHT a1 = ⟨buf, buf.length⟩) ∧
    (keyCallback ⟨buf, c⟩ GLFW_KEY_LEFT a1).Message = buf ∧
    (keyCallback ⟨buf, c⟩ GLFW_KEY_RIGHT a1).Message = buf := by
  have hl : ∀ (s : Editor) (a : Int), (a = GLFW_PRESS ∨ a = GLFW_REPEAT) →
      keyCallback s GLFW_KEY_LEFT a
        = if s.CursorPos > 0 then { s with CursorPos := s.CursorPos - 1 } else s := by
    intro s a ha
    unfold keyCallback
    rw [if_pos ha, if_neg (by decide), if_neg (by decide), if_neg (by decide), if_pos rfl]
  have hr : ∀ (s : Editor) (a : Int), (a = GLFW_PRESS ∨ a = GLFW_REPEAT) →
      keyCallback s GLFW_KEY_RIGHT a
        = if s.CursorPos < s.Message.length then { s with CursorPos := s.CursorPos + 1 }
          else s := by
    intro s a ha
    unfold keyCallback
    rw [if_pos ha, if_neg (by decide), if_neg (by decide), if_neg (by decide),
      if_neg (by decide), if_pos rfl]
  refine ⟨?_, ?_, ?_, ?_, ?_, ?_⟩
  · intro hpos
    rw [hl _ _ h1, hr _ _ h2]
    simp only [gt_iff_lt, hpos, if_true]
    rw [if_pos (by omega)]
    simp only [Nat.sub_add_cancel hpos]
  · intro hlt
    rw [hr _ _ h1, hl _ _ h2]
    simp only [hlt, if_true]
    rw [if_pos (by omega)]
    simp
  · intro h0
    subst h0
    rw [hl _ _ h1]
    simp
  · intro he
    subst he
    rw [hr _ _ h1]
    simp
  · rw [hl _ _ h1]
    split_ifs <;> rfl
  · rw [hr _ _ h1]
    split_ifs <;> rfl

/-- C9 at the buffer `ab` with the cursor at 1. -/
theorem cursor_move_round_trip_witness :
    (0 < 1 →
      keyCallback (keyCallback ⟨[97, 98], 1⟩ GLFW_KEY_LEFT GLFW_PRESS) GLFW_KEY_RIGHT
        GLFW_REPEAT = ⟨[97, 98], 1⟩) ∧
    (1 < [97, 98].length →
      keyCallback (keyCallback ⟨[97, 98], 1⟩ GLFW_KEY_RIGHT GLFW_PRESS) GLFW_KEY_LEFT
        GLFW_REPEAT = ⟨[97, 98], 1⟩) ∧
    ((1 : Nat) = 0 → keyCallback ⟨[97, 98], 1⟩ GLFW_KEY_LEFT GLFW_PRESS = ⟨[97, 98], 0⟩) ∧
    ((1 : Nat) = [97, 98].length →
      keyCallback ⟨[97, 98], 1⟩ GLFW_KEY_RIGHT GLFW_PRESS = ⟨[97, 98], [97, 98].length⟩) ∧
    (keyCallback ⟨[97, 98], 1⟩ GLFW_KEY_LEFT GLFW_PRESS).Message = [97, 98] ∧
    (keyCallback ⟨[97, 98], 1⟩ GLFW_KEY_RIGHT GLFW_PRESS).Message = [97, 98] :=
  cursor_move_round_trip [97, 98] 1 GLFW_PRESS GLFW_REPEAT (by decide) (Or.inl rfl) (Or.inr rfl)

/-! ## Theorems: render walk -/

theorem float32Ulp_pos (fuel a : Nat) : 0 < float32Ulp fuel a := by
  induction fuel generalizing a with
  | zero => simp [float32Ulp]
  | succ n ih =>
    unfold float32Ulp
    split_ifs
    · decide
    · have := ih (a / 2); omega

/-- A magnitude that is a multiple of the spacing around it is a binary32 value. -/
theorem roundToFloat32_of_dvd (a : Nat) (h : a % float32Ulp 8 a = 0) :
    roundToFloat32 a = a := by
  have hpos := float32Ulp_pos 8 a
  unfold roundToFloat32
  rw [h, if_pos (by omega)]
  exact Nat.div_mul_cancel (Nat.dvd_of_mod_eq_zero h)

theorem float32Ulp_small (a : Nat) (h : a ≤ 2 ^ 24) : a % float32Ulp 8 a = 0 := by
  simp only [float32Ulp]
  norm_num at h
  split_ifs <;> omega

theorem float32Ulp_mul8 (k : Nat) (h : k ≤ 2 ^ 24) : (8 * k) % float32Ulp 8 (8 * k) = 0 := by
  simp only [float32Ulp]
  norm_num at h
  split_ifs <;> omega

theorem float32Ulp_mul16 (k : Nat) (h : k ≤ 2 ^ 24) :
    (16 * k) % float32Ulp 8 (16 * k) = 0 := by
  simp only [float32Ulp]
  norm_num at h
  split_ifs <;> omega

/-- The conversion to `GLfloat` is exact on the integers of magnitude at most `2 ^ 24`. -/
theorem toGLfloat_small (v : Int) (h0 : -2 ^ 24 ≤ v) (h1 : v ≤ 2 ^ 24) : toGLfloat v = v := by
  unfold toGLfloat
  have hn : v.natAbs ≤ 2 ^ 24 := by norm_num at *; omega
  rw [roundToFloat32_of_dvd _ (float32Ulp_small _ hn)]
  split_ifs <;> omega

/-- The conversion to `GLfloat` is exact on the multiples of 8 up to `2 ^ 27`. -/
theorem toGLfloat_mul8 (k : Nat) (h : k ≤ 2 ^ 24) :
    toGLfloat (8 * (k : Int)) = 8 * (k : Int) := by
  unfold toGLfloat
  have e : (8 * (k : Int)).natAbs = 8 * k := by omega
  rw [if_neg (by omega), e, roundToFloat32_of_dvd _ (float32Ulp_mul8 k h)]
  push_cast
  rfl

/-- The conversion to `GLfloat` is exact on the multiples of 16 up to `2 ^ 28`. -/
theorem toGLfloat_mul16 (k : Nat) (h : k ≤ 2 ^ 24) :
    toGLfloat (16 * (k : Int)) = 16 * (k : Int) := by
  unfold toGLfloat
  have e : (16 * (k : Int)).natAbs = 16 * k := by omega
  rw [if_neg (by omega), e, roundToFloat32_of_dvd _ (float32Ulp_mul16 k h)]
  push_cast
  rfl

theorem toInt32_of_range (v : Int) (h0 : -2 ^ 31 ≤ v) (h1 : v < 2 ^ 31) : toInt32 v = v := by
  unfold toInt32
  norm_num at *
  omega

theorem addSizeT_eq (x : Int) (k : Nat) : addSizeT x k = toInt32 (x + k) := by
  unfold addSizeT toInt32
  norm_num
  omega

theorem toInt32_add_toInt32 (a k : Int) : toInt32 (toInt32 a + k) = toInt32 (a + k) := by
  unfold toInt32
  norm_num
  omega

theorem charToInt_eq_iff (s : Bool) (b : Nat) (hb : b < 256) (n : Nat) (hn : n < 128) :
    charToInt s b = (n : Int) ↔ b = n := by
  unfold charToInt
  split_ifs with h <;> omega

theorem renderChar_newline (s : Bool) (f : Frame) :
    renderChar s f 10 = { f with x := 0, y := addSizeT f.y FontSizeY } := by
  simp [renderChar, charToInt]

theorem renderChar_return (s : Bool) (f : Frame) : renderChar s f 13 = f := by
  simp [renderChar, charToInt]

theorem renderChar_tab (s : Bool) (f : Frame) :
    renderChar s f 9 =
      { x := addSizeT (addSizeT (addSizeT (addSizeT f.x FontSizeX) FontSizeX) FontSizeX) FontSizeX
        y := f.y
        uCharacter := 32
        uPosition :=
          (toGLfloat (addSizeT (addSizeT (addSizeT f.x FontSizeX) FontSizeX) FontSizeX),
            toGLfloat f.y)
        drawn := f.drawn ++
          [⟨32, toGLfloat f.x, toGLfloat f.y⟩,
           ⟨32, toGLfloat (addSizeT f.x FontSizeX), toGLfloat f.y⟩,
           ⟨32, toGLfloat (addSizeT (addSizeT f.x FontSizeX) FontSizeX), toGLfloat f.y⟩,
           ⟨32, toGLfloat (addSizeT (addSizeT (addSizeT f.x FontSizeX) FontSizeX) FontSizeX),
             toGLfloat f.y⟩] } := by
  simp [renderChar, charToInt, List.range_succ, drawQuad, setCharacter]

theorem renderChar_other (s : Bool) (f : Frame) (b : Nat) (hb : b < 256)
    (h10 : b ≠ 10) (h13 : b ≠ 13) (h9 : b ≠ 9) :
    renderChar s f b =
      { x := addSizeT f.x FontSizeX
        y := f.y
        uCharacter := charToInt s b
        uPosition := (toGLfloat f.x, toGLfloat f.y)
        drawn := f.drawn ++ [⟨charToInt s b, toGLfloat f.x, toGLfloat f.y⟩] } := by
  have e10 : ¬ charToInt s b = 10 := fun h => h10 ((charToInt_eq_iff s b hb 10 (by decide)).1 h)
  have e13 : ¬ charToInt s b = 13 := fun h => h13 ((charToInt_eq_iff s b hb 13 (by decide)).1 h)
  have e9 : ¬ charToInt s b = 9 := fun h => h9 ((charToInt_eq_iff s b hb 9 (by decide)).1 h)
  simp [renderChar, e10, e13, e9, drawQuad, setCharacter]

theorem renderFrom_append (s : Bool) (f : Frame) (a b : List Nat) :
    renderFrom s f (a ++ b) = renderFrom s (renderFrom s f a) b := by
  simp [renderFrom, List.foldl_append]

theorem renderFrom_snoc (s : Bool) (f : Frame) (a : List Nat) (b : Nat) :
    renderFrom s f (a ++ [b]) = renderChar s (renderFrom s f a) b := by
  simp [renderFrom, List.foldl_append]

theorem lastLine_snoc (pre : List Nat) (b : Nat) :
    lastLine (pre ++ [b]) = if b = 10 then [] else lastLine pre ++ [b] := by
  simp [lastLine, List.foldl_append]

theorem quadCount_append (a b : List Nat) : quadCount (a ++ b) = quadCount a + quadCount b := by
  simp [quadCount]

theorem quadCount_singleton (b : Nat) : quadCount [b] = quadsOfByte b := by
  simp [quadCount]

theorem renderChar_drawn_extends (s : Bool) (f : Frame) (b : Nat) :
    ∃ t, (renderChar s f b).drawn = f.drawn ++ t := by
  unfold renderChar
  split_ifs
  · exact ⟨[], by simp⟩
  · exact ⟨[], by simp⟩
  · exact ⟨_, by simp [List.range_succ, drawQuad, setCharacter]; rfl⟩
  · exact ⟨_, by simp [drawQuad, setCharacter]; rfl⟩

theorem renderFrom_drawn_extends (s : Bool) (f : Frame) (l : List Nat) :
    ∃ t, (renderFrom s f l).drawn = f.drawn ++ t := by
  induction l generalizing f with
  | nil => exact ⟨[], by simp [renderFrom]⟩
  | cons b l ih =>
    obtain ⟨t1, h1⟩ := renderChar_drawn_extends s f b
    obtain ⟨t2, h2⟩ := ih (renderChar s f b)
    refine ⟨t1 ++ t2, ?_⟩
    have : renderFrom s f (b :: l) = renderFrom s (renderChar s f b) l := rfl
    rw [this, h2, h1, List.append_assoc]

/-- The pen and the number of draw calls after the walk over a run of bytes. -/
theorem renderWalk_pen (s : Bool) (u : Int) (p : Int × Int) (msg : List Nat)
    (hmsg : ∀ b ∈ msg, b < 256) :
    (renderWalk s u p msg).x = toInt32 (8 * (quadCount (lastLine msg) : Int)) ∧
    (renderWalk s u p msg).y = toInt32 (16 * (msg.count 10 : Int)) ∧
    (renderWalk s u p msg).drawn.length = quadCount msg := by
  induction msg using List.reverseRecOn with
  | nil => simp [renderWalk, renderFrom, Frame.start, lastLine, quadCount, toInt32]
  | append_singleton pre b ih =>
    have hpre : ∀ c ∈ pre, c < 256 := fun c hc => hmsg c (List.mem_append_left _ hc)
    have hb : b < 256 := hmsg b (by simp)
    obtain ⟨hx, hy, hd⟩ := ih hpre
    unfold renderWalk at hx hy hd ⊢
    rw [renderFrom_snoc, lastLine_snoc, quadCount_append, quadCount_singleton,
      List.count_append]
    by_cases h10 : b = 10
    · subst h10
      rw [renderChar_newline]
      simp only [hy, hd, addSizeT_eq, FontSizeY, if_true, quadsOfByte]
      refine ⟨by simp [quadCount, toInt32], ?_, by simp⟩
      rw [toInt32_add_toInt32]
      congr 1
    · by_cases h13 : b = 13
      · subst h13
        rw [renderChar_return]
        simp only [hx, hy, hd, quadsOfByte, if_neg h10]
        refine ⟨?_, by simp, by simp⟩
        simp [quadCount_append, quadCount_singleton, quadsOfByte]
      · by_cases h9 : b = 9
        · subst h9
          rw [renderChar_tab]
          simp only [hx, hy, hd, addSizeT_eq, FontSizeX, if_neg h10, quadCount_append,
            quadCount_singleton, quadsOfByte]
          refine ⟨?_, by simp, by simp [hd]⟩
          simp only [toInt32_add_toInt32]
          congr 1
        · rw [renderChar_other s _ b hb h10 h13 h9]
          simp only [hx, hy, hd, addSizeT_eq, FontSizeX, if_neg h10, quadCount_append,
            quadCount_singleton, quadsOfByte]
          refine ⟨?_, ?_, ?_⟩
          · rw [toInt32_add_toInt32]
            congr 1
            simp only [h10, h13, h9, or_self, if_false]
            push_cast
            ring
          · have : List.count 10 [b] = 0 := by
              simp [List.count_singleton]
              exact fun h => h10 h
            simp [this]
          · simp [h10, h13, h9, hd]

/-- The draw calls and the pen of a walk do not depend on the uniforms left by the
previous frame. -/
theorem renderWalk_uniforms (s : Bool) (u : Int) (p : Int × Int) (msg : List Nat)
    (hmsg : ∀ b ∈ msg, b < 256) :
    (renderWalk s u p msg).drawn = (renderWalk s 0 (0, 0) msg).drawn ∧
    (renderWalk s u p msg).x = (renderWalk s 0 (0, 0) msg).x ∧
    (renderWalk s u p msg).y = (renderWalk s 0 (0, 0) msg).y := by
  induction msg using List.reverseRecOn with
  | nil => exact ⟨rfl, rfl, rfl⟩
  | append_singleton pre b ih =>
    have hpre : ∀ c ∈ pre, c < 256 := fun c hc => hmsg c (List.mem_append_left _ hc)
    have hb : b < 256 := hmsg b (by simp)
    obtain ⟨hd, hx, hy⟩ := ih hpre
    unfold renderWalk at hd hx hy ⊢
    rw [renderFrom_snoc, renderFrom_snoc]
    by_cases h10 : b = 10
    · subst h10
      simp only [renderChar_newline, hd, hy, and_self]
    by_cases h13 : b = 13
    · subst h13
      simp only [renderChar_return, hd, hx, hy, and_self]
    by_cases h9 : b = 9
    · subst h9
      simp only [renderChar_tab, hd, hx, hy, and_self]
    · simp only [renderChar_other s _ b hb h10 h13 h9, hd, hx, hy, and_self]

/-- The draw calls issued for the byte that follows the run `pre`. -/
theorem renderWalk_quad (s : Bool) (u : Int) (p : Int × Int) (pre : List Nat) (b : Nat)
    (post : List Nat) (j : Nat) (hpre : ∀ c ∈ pre, c < 256) (hb : b < 256)
    (hj : j < quadsOfByte b) :
    (renderWalk s u p (pre ++ b :: post)).drawn[quadCount pre + j]? =
      some ⟨if b = 9 then 32 else charToInt s b,
        toGLfloat (toInt32 (8 * ((quadCount (lastLine pre) : Int) + (j : Int)))),
        toGLfloat (toInt32 (16 * (pre.count 10 : Int)))⟩ := by
  obtain ⟨hx, hy, hd⟩ := renderWalk_pen s u p pre hpre
  unfold renderWalk at hx hy hd ⊢
  have hsplit : pre ++ b :: post = (pre ++ [b]) ++ post := by simp
  rw [hsplit, renderFrom_append, renderFrom_snoc]
  obtain ⟨t, ht⟩ := renderFrom_drawn_extends s
    (renderChar s (renderFrom s (Frame.start u p) pre) b) post
  rw [ht]
  have e0 : (8 : Int) * ((quadCount (lastLine pre) : Int) + ((0 : Nat) : Int))
      = 8 * (quadCount (lastLine pre) : Int) := by push_cast; ring
  have e1 : (8 : Int) * ((quadCount (lastLine pre) : Int) + ((1 : Nat) : Int))
      = 8 * (quadCount (lastLine pre) : Int) + 8 := by push_cast; ring
  have e2 : (8 : Int) * ((quadCount (lastLine pre) : Int) + ((2 : Nat) : Int))
      = 8 * (quadCount (lastLine pre) : Int) + 8 + 8 := by push_cast; ring
  have e3 : (8 : Int) * ((quadCount (lastLine pre) : Int) + ((3 : Nat) : Int))
      = 8 * (quadCount (lastLine pre) : Int) + 8 + 8 + 8 := by push_cast; ring
  by_cases h10 : b = 10
  · subst h10; simp [quadsOfByte] at hj
  by_cases h13 : b = 13
  · subst h13; simp [quadsOfByte] at hj
  by_cases h9 : b = 9
  · subst h9
    rw [renderChar_tab]
    simp only [if_true]
    rw [List.append_assoc, ← hd, List.getElem?_append_right (Nat.le_add_right _ _),
      Nat.add_sub_cancel_left]
    simp only [quadsOfByte] at hj
    simp only [hx, hy, addSizeT_eq, FontSizeX, toInt32_add_toInt32, Nat.cast_ofNat]
    have hj4 : j < 4 := by simpa using hj
    interval_cases j
    · rw [e0]; simp
    · rw [e1]; simp
    · rw [e2]; simp
    · rw [e3]; simp
  · rw [renderChar_other s _ b hb h10 h13 h9]
    have hj0 : j = 0 := by
      simp [quadsOfByte, h10, h13, h9] at hj
      exact hj
    subst hj0
    simp only [if_neg h9]
    rw [List.append_assoc, ← hd, List.getElem?_append_right (Nat.le_add_right _ _),
      Nat.add_sub_cancel_left, e0, hx, hy]
    simp

theorem renderChar_selectors (s : Bool) (f : Frame) (b : Nat) (hb : b < 256) :
    (renderChar s f b).drawn.map Quad.uCharacter
      = f.drawn.map Quad.uCharacter ++ selectorsOfByte s b := by
  by_cases h10 : b = 10
  · subst h10; simp [renderChar_newline, selectorsOfByte]
  by_cases h13 : b = 13
  · subst h13; simp [renderChar_return, selectorsOfByte]
  by_cases h9 : b = 9
  · subst h9; simp [renderChar_tab, selectorsOfByte]
  · rw [renderChar_other s f b hb h10 h13 h9]
    simp [selectorsOfByte, h10, h13, h9]

/-- The selectors of the draw calls of a walk, in the order of the calls. -/
theorem renderFrom_selectors (s : Bool) (f : Frame) (l : List Nat) (hl : ∀ b ∈ l, b < 256) :
    (renderFrom s f l).drawn.map Quad.uCharacter
      = f.drawn.map Quad.uCharacter ++ l.flatMap (selectorsOfByte s) := by
  induction l generalizing f with
  | nil => simp [renderFrom]
  | cons b l ih =>
    have hb : b < 256 := hl b (List.mem_cons_self _ _)
    have hl2 : ∀ c ∈ l, c < 256 := fun c hc => hl c (List.mem_cons_of_mem _ hc)
    have : renderFrom s f (b :: l) = renderFrom s (renderChar s f b) l := rfl
    rw [this, ih _ hl2, renderChar_selectors s f b hb]
    simp

theorem quadCount_replicate (n b : Nat) : quadCount (List.replicate n b) = n * quadsOfByte b := by
  simp [quadCount, List.sum_replicate]

theorem lastLine_replicate_newline (n : Nat) : lastLine (List.replicate n 10) = [] := by
  cases n with
  | zero => rfl
  | succ n => rw [List.replicate_succ', lastLine_snoc, if_pos rfl]

theorem lastLine_replicate (n b : Nat) (hb : b ≠ 10) :
    lastLine (List.replicate n b) = List.replicate n b := by
  induction n with
  | zero => rfl
  | succ n ih => rw [List.replicate_succ', lastLine_snoc, if_neg hb, ih]

/-- C5, counterexample: the quad of the byte that follows `2 ^ 24 + 1` letters on one line
is drawn at `x = 134217728`, the `GLfloat` nearest to the pen `134217736`, not at 8 times
the number of quads before it; and after `2 ^ 27` newlines the pen `y` has wrapped, so that
the quad of the byte that follows is drawn at `y = -2 ^ 31`, not at 16 times the number of
newlines before it. -/
theorem render_walk_counterexample :
    (renderWalk true 0 (0, 0) (List.replicate 16777217 97 ++ [97])).drawn[16777217]?
      = some ⟨97, 134217728, 0⟩ ∧
    (134217728 : Int) ≠ 8 * (quadCount (lastLine (List.replicate 16777217 97)) : Int) ∧
    (renderWalk true 0 (0, 0) (List.replicate 134217728 10 ++ [97])).drawn[0]?
      = some ⟨97, 0, -2147483648⟩ ∧
    (-2147483648 : Int) ≠ 16 * ((List.replicate 134217728 10).count 10 : Int) := by
  have hq : quadCount (List.replicate 16777217 97) = 16777217 := by
    rw [quadCount_replicate]; decide
  refine ⟨?_, ?_, ?_, ?_⟩
  · have h := renderWalk_quad true 0 (0, 0) (List.replicate 16777217 97) 97 [] 0
      (by intro c hc; rw [List.eq_of_mem_replicate hc]; decide) (by decide) (by decide)
    rw [lastLine_replicate _ _ (by decide), hq, List.count_replicate] at h
    rw [h]
    decide
  · rw [lastLine_replicate _ _ (by decide), hq]
    decide
  · have h := renderWalk_quad true 0 (0, 0) (List.replicate 134217728 10) 97 [] 0
      (by intro c hc; rw [List.eq_of_mem_replicate hc]; decide) (by decide) (by decide)
    rw [quadCount_replicate, lastLine_replicate_newline] at h
    simp only [List.count_replicate_self] at h
    have e : 134217728 * quadsOfByte 10 + 0 = 0 := by decide
    rw [e] at h
    rw [h]
    decide
  · simp only [List.count_replicate_self]
    decide

/-- C8, counterexample: after `2 ^ 24` quads on one line the pen is at `x = 2 ^ 27`; a tab
met there draws its second quad at `x = 134217728`, the `GLfloat` nearest to the pen
`x + 8`, and not at `x + 8`. After `2 ^ 28 - 1` quads on one line the pen is at
`x = 2147483640`, and the second quad of a tab met there is drawn at `x = -2147483648`,
the pen having wrapped. -/
theorem tab_counterexample :
    (renderWalk true 0 (0, 0) (List.replicate 16777216 97)).x = 134217728 ∧
    (renderWalk true 0 (0, 0) (List.replicate 16777216 97)).y = 0 ∧
    (renderWalk true 0 (0, 0) (List.replicate 16777216 97 ++ [9])).drawn[16777216 + 1]?
      = some ⟨32, 134217728, 0⟩ ∧
    (134217728 : Int) ≠ 134217728 + 8 ∧
    (renderWalk true 0 (0, 0) (List.replicate 268435455 97)).x = 2147483640 ∧
    (renderWalk true 0 (0, 0) (List.replicate 268435455 97 ++ [9])).drawn[268435455 + 1]?
      = some ⟨32, -2147483648, 0⟩ ∧
    (-2147483648 : Int) ≠ 2147483640 + 8 := by
  have hrep : ∀ n, ∀ c ∈ List.replicate n 97, c < 256 := by
    intro n c hc; rw [List.eq_of_mem_replicate hc]; decide
  have hq : ∀ n, quadCount (List.replicate n 97) = n := by
    intro n; rw [quadCount_replicate]; simp [quadsOfByte]
  have hc : ∀ n, (List.replicate n 97).count 10 = 0 := by
    intro n; simp [List.count_replicate]
  obtain ⟨hx, hy, -⟩ := renderWalk_pen true 0 (0, 0) (List.replicate 16777216 97) (hrep _)
  rw [lastLine_replicate _ _ (by decide), hq] at hx
  rw [hc] at hy
  obtain ⟨hx2, -, -⟩ := renderWalk_pen true 0 (0, 0) (List.replicate 268435455 97) (hrep _)
  rw [lastLine_replicate _ _ (by decide), hq] at hx2
  refine ⟨?_, ?_, ?_, by decide, ?_, ?_, by decide⟩
  · rw [hx]; decide
  · rw [hy]; decide
  · have h := renderWalk_quad true 0 (0, 0) (List.replicate 16777216 97) 9 [] 1
      (hrep _) (by decide) (by decide)
    rw [lastLine_replicate _ _ (by decide), hq, hc] at h
    rw [h]
    decide
  · rw [hx2]; decide
  · have h := renderWalk_quad true 0 (0, 0) (List.replicate 268435455 97) 9 [] 1
      (hrep _) (by decide) (by decide)
    rw [lastLine_replicate _ _ (by decide), hq, hc] at h
    rw [h]
    decide

/-- C5, as amended: in the walk of one frame over a buffer of bytes, from the pen `(0, 0)`,
the selectors of the draw calls are, in buffer order, none for `'\n'` and `'\r'`, four
times 32 for `'\t'` and the promoted byte for any other byte, so that the walk draws
`quadCount msg` quads; `'\n'` sets `x` to 0 and adds 16 to `y` in `GLint` arithmetic and
draws nothing, `'\r'` changes nothing, any other byte but `'\t'` draws one quad at the
`GLfloat` conversion of the pen and adds 8 to `x` in `GLint` arithmetic. Every quad of the
byte after a run `pre` is drawn at the `GLfloat` conversions of
`x = 8 * (quads drawn since the last newline)` and `y = 16 * (newlines in pre)`, these
being reduced to the 32-bit range first; the quad is at these numbers themselves when
`x ≤ 2 ^ 27` and `y ≤ 2 ^ 28`, that is, after at most `2 ^ 24` quads on the line and
`2 ^ 24` newlines. For the buffer `"ab\ncd"` the pen `x` is 0 after exactly one byte, the
one newline, and the four quads are `a`, `b`, `c`, `d` at `(0, 0)`, `(8, 0)`, `(0, 16)`,
`(8, 16)`. -/
theorem render_walk (s : Bool) (u : Int) (p : Int × Int) :
    (∀ msg : List Nat, (∀ b ∈ msg, b < 256) →
      (renderWalk s u p msg).drawn.map Quad.uCharacter = msg.flatMap (selectorsOfByte s) ∧
      (renderWalk s u p msg).drawn.length = quadCount msg) ∧
    (∀ f : Frame, renderChar s f 10 = { f with x := 0, y := toInt32 (f.y + 16) }) ∧
    (∀ f : Frame, renderChar s f 13 = f) ∧
    (∀ (f : Frame) (b : Nat), b < 256 → b ≠ 10 → b ≠ 13 → b ≠ 9 →
      (renderChar s f b).drawn
        = f.drawn ++ [⟨charToInt s b, toGLfloat f.x, toGLfloat f.y⟩] ∧
      (renderChar s f b).x = toInt32 (f.x + 8) ∧ (renderChar s f b).y = f.y) ∧
    (∀ (pre : List Nat) (b : Nat) (post : List Nat) (j : Nat),
      (∀ c ∈ pre, c < 256) → b < 256 → j < quadsOfByte b →
      (renderWalk s u p (pre ++ b :: post)).drawn[quadCount pre + j]? =
        some ⟨if b = 9 then 32 else charToInt s b,
          toGLfloat (toInt32 (8 * ((quadCount (lastLine pre) : Int) + (j : Int)))),
          toGLfloat (toInt32 (16 * (pre.count 10 : Int)))⟩) ∧
    (∀ (pre : List Nat) (b : Nat) (post : List Nat) (j : Nat),
      (∀ c ∈ pre, c < 256) → b < 256 → j < quadsOfByte b →
      8 * ((quadCount (lastLine pre) : Int) + (j : Int)) ≤ 2 ^ 27 →
      16 * (pre.count 10 : Int) ≤ 2 ^ 28 →
      (renderWalk s u p (pre ++ b :: post)).drawn[quadCount pre + j]? =
        some ⟨if b = 9 then 32 else charToInt s b,
          8 * ((quadCount (lastLine pre) : Int) + (j : Int)),
          16 * (pre.count 10 : Int)⟩) ∧
    (renderWalk s u p [97, 98, 10, 99, 100]).drawn
      = [⟨97, 0, 0⟩, ⟨98, 8, 0⟩, ⟨99, 0, 16⟩, ⟨100, 8, 16⟩] ∧
    penTrace s (Frame.start u p) [97, 98, 10, 99, 100]
      = [(8, 0), (16, 0), (0, 16), (8, 16), (16, 16)] ∧
    [97, 98, 10, 99, 100].count 10 = 1 := by
  refine ⟨?_, ?_, ?_, ?_, ?_, ?_, ?_, ?_, ?_⟩
  · intro msg hmsg
    refine ⟨?_, (renderWalk_pen s u p msg hmsg).2.2⟩
    have h := renderFrom_selectors s (Frame.start u p) msg hmsg
    simpa [renderWalk, Frame.start] using h
  · intro f
    rw [renderChar_newline, addSizeT_eq]
    rfl
  · exact renderChar_return s
  · intro f b hb h10 h13 h9
    rw [renderChar_other s f b hb h10 h13 h9, addSizeT_eq]
    exact ⟨rfl, rfl, rfl⟩
  · intro pre b post j hpre hb hj
    exact renderWalk_quad s u p pre b post j hpre hb hj
  · intro pre b post j hpre hb hj hx hy
    have hk : quadCount (lastLine pre) + j ≤ 2 ^ 24 := by
      norm_num at hx ⊢
      omega
    have hn : pre.count 10 ≤ 2 ^ 24 := by
      norm_num at hy ⊢
      omega
    have ex := toGLfloat_mul8 (quadCount (lastLine pre) + j) hk
    have ey := toGLfloat_mul16 (pre.count 10) hn
    push_cast at ex
    rw [renderWalk_quad s u p pre b post j hpre hb hj,
      toInt32_of_range _ (by omega) (by norm_num at hx ⊢; omega),
      toInt32_of_range _ (by omega) (by norm_num at hy ⊢; omega), ex, ey]
  · rw [(renderWalk_uniforms s u p _ (by decide)).1]
    cases s <;> decide
  · cases s <;>
      simp [penTrace, Frame.start, renderChar, charToInt, drawQuad, setCharacter,
        addSizeT_eq, FontSizeX, FontSizeY] <;> decide
  · decide

/-- C5 at the buffer `a`, tab, newline, `b`, `c`, `d`: the quad of `c` is the sixth one,
at `(8, 16)`. -/
theorem render_walk_witness :
    (renderWalk true 0 (0, 0) ([97, 9, 10, 98] ++ 99 :: [100])).drawn[
        quadCount [97, 9, 10, 98] + 0]? =
      some ⟨if 99 = 9 then 32 else charToInt true 99,
        8 * ((quadCount (lastLine [97, 9, 10, 98]) : Int) + ((0 : Nat) : Int)),
        16 * (([97, 9, 10, 98].count 10 : Nat) : Int)⟩ ∧
    (8 : Int) * ((quadCount (lastLine [97, 9, 10, 98]) : Int) + ((0 : Nat) : Int)) = 8 ∧
    (16 : Int) * (([97, 9, 10, 98].count 10 : Nat) : Int) = 16 :=
  ⟨(render_walk true 0 (0, 0)).2.2.2.2.2.1 [97, 9, 10, 98] 99 [100] 0
      (by decide) (by decide) (by decide) (by decide) (by decide),
    by decide, by decide⟩

/-- C8, as amended: a `'\t'` met at the pen `(x, y)` draws exactly four quads, each with
the selector 32, at the `GLfloat` conversions of `x`, `x + 8`, `x + 16`, `x + 24` on the
line of the `GLfloat` conversion of `y`, and leaves the pen at `(x + 32, y)`, the sums
being taken in 32-bit `GLint` arithmetic. The quads are at `(x, y)`, `(x + 8, y)`,
`(x + 16, y)`, `(x + 24, y)` themselves and the pen is left at `(x + 32, y)` when the pen is
one the walk reaches without rounding, `x` a multiple of 8 with `x + 24 ≤ 2 ^ 27` and `y`
a multiple of 16 with `y ≤ 2 ^ 28`, and also when `-2 ^ 24 ≤ x`, `x + 24 ≤ 2 ^ 24` and
`-2 ^ 24 ≤ y ≤ 2 ^ 24`. Nothing depends on the column. A buffer that is a single `'\t'`
gives four space quads at `x = 0, 8, 16, 24`. -/
theorem tab_rendering (s : Bool) (f : Frame) (u : Int) (p : Int × Int) :
    (renderChar s f 9).drawn = f.drawn ++
      [⟨32, toGLfloat f.x, toGLfloat f.y⟩, ⟨32, toGLfloat (toInt32 (f.x + 8)), toGLfloat f.y⟩,
       ⟨32, toGLfloat (toInt32 (f.x + 16)), toGLfloat f.y⟩,
       ⟨32, toGLfloat (toInt32 (f.x + 24)), toGLfloat f.y⟩] ∧
    (renderChar s f 9).x = toInt32 (f.x + 32) ∧
    (renderChar s f 9).y = f.y ∧
    (∀ k n : Nat, f.x = 8 * (k : Int) → f.y = 16 * (n : Int) → k + 3 ≤ 2 ^ 24 → n ≤ 2 ^ 24 →
      (renderChar s f 9).drawn = f.drawn ++
        [⟨32, f.x, f.y⟩, ⟨32, f.x + 8, f.y⟩, ⟨32, f.x + 16, f.y⟩, ⟨32, f.x + 24, f.y⟩] ∧
      (renderChar s f 9).x = f.x + 32 ∧
      (renderChar s f 9).y = f.y) ∧
    (-2 ^ 24 ≤ f.x → f.x + 24 ≤ 2 ^ 24 → -2 ^ 24 ≤ f.y → f.y ≤ 2 ^ 24 →
      (renderChar s f 9).drawn = f.drawn ++
        [⟨32, f.x, f.y⟩, ⟨32, f.x + 8, f.y⟩, ⟨32, f.x + 16, f.y⟩, ⟨32, f.x + 24, f.y⟩] ∧
      (renderChar s f 9).x = f.x + 32 ∧
      (renderChar s f 9).y = f.y) ∧
    (renderWalk s u p [9]).drawn = [⟨32, 0, 0⟩, ⟨32, 8, 0⟩, ⟨32, 16, 0⟩, ⟨32, 24, 0⟩] := by
  have e2 : f.x + 8 + 8 = f.x + 16 := by ring
  have e3 : f.x + 16 + 8 = f.x + 24 := by ring
  have hd : (renderChar s f 9).drawn = f.drawn ++
      [⟨32, toGLfloat f.x, toGLfloat f.y⟩, ⟨32, toGLfloat (toInt32 (f.x + 8)), toGLfloat f.y⟩,
       ⟨32, toGLfloat (toInt32 (f.x + 16)), toGLfloat f.y⟩,
       ⟨32, toGLfloat (toInt32 (f.x + 24)), toGLfloat f.y⟩] := by
    rw [renderChar_tab]
    simp only [addSizeT_eq, FontSizeX, toInt32_add_toInt32, Nat.cast_ofNat, e2, e3]
  have hx : (renderChar s f 9).x = toInt32 (f.x + 32) := by
    rw [renderChar_tab]
    simp only [addSizeT_eq, FontSizeX, toInt32_add_toInt32, Nat.cast_ofNat]
    congr 1
    ring
  have hy : (renderChar s f 9).y = f.y := by rw [renderChar_tab]
  refine ⟨hd, hx, hy, ?_, ?_, ?_⟩
  · intro k n hk hn hk3 hn24
    have h0 := toGLfloat_mul8 k (by omega)
    have h1 := toGLfloat_mul8 (k + 1) (by omega)
    have h2 := toGLfloat_mul8 (k + 2) (by omega)
    have h3 := toGLfloat_mul8 (k + 3) (by omega)
    have hyy := toGLfloat_mul16 n hn24
    push_cast at h1 h2 h3
    have a1 : f.x + 8 = 8 * ((k : Int) + 1) := by rw [hk]; ring
    have a2 : f.x + 16 = 8 * ((k : Int) + 2) := by rw [hk]; ring
    have a3 : f.x + 24 = 8 * ((k : Int) + 3) := by rw [hk]; ring
    norm_num at hk3
    rw [hd, hx, hy,
      toInt32_of_range (f.x + 8) (by omega) (by omega),
      toInt32_of_range (f.x + 16) (by omega) (by omega),
      toInt32_of_range (f.x + 24) (by omega) (by omega),
      toInt32_of_range (f.x + 32) (by omega) (by omega),
      a1, a2, a3, h1, h2, h3, hk, hn, h0, hyy]
    exact ⟨rfl, rfl, rfl⟩
  · intro h0 h1 h2 h3
    norm_num at h0 h1 h2 h3
    rw [hd, hx, hy,
      toInt32_of_range (f.x + 8) (by omega) (by omega),
      toInt32_of_range (f.x + 16) (by omega) (by omega),
      toInt32_of_range (f.x + 24) (by omega) (by omega),
      toInt32_of_range (f.x + 32) (by omega) (by omega),
      toGLfloat_small f.x (by norm_num; omega) (by norm_num; omega),
      toGLfloat_small (f.x + 8) (by norm_num; omega) (by norm_num; omega),
      toGLfloat_small (f.x + 16) (by norm_num; omega) (by norm_num; omega),
      toGLfloat_small (f.x + 24) (by norm_num; omega) (by norm_num; omega),
      toGLfloat_small f.y (by norm_num; omega) (by norm_num; omega)]
    exact ⟨rfl, rfl, rfl⟩
  · rw [(renderWalk_uniforms s u p _ (by decide)).1]
    cases s <;> decide

/-- C8 at the pen `(40, 16)`. -/
theorem tab_rendering_witness :
    (renderChar false ⟨40, 16, 0, (0, 0), []⟩ 9).drawn
      = [⟨32, 40, 16⟩, ⟨32, 40 + 8, 16⟩, ⟨32, 40 + 16, 16⟩, ⟨32, 40 + 24, 16⟩] ∧
    (renderChar false ⟨40, 16, 0, (0, 0), []⟩ 9).x = 40 + 32 ∧
    (renderChar false ⟨40, 16, 0, (0, 0), []⟩ 9).y = 16 :=
  (tab_rendering false ⟨40, 16, 0, (0, 0), []⟩ 0 (0, 0)).2.2.2.1 5 1
    (by decide) (by decide) (by decide) (by decide)

/-! ## Theorems: font loader -/

set_option maxRecDepth 100000 in
theorem bitTest_eq_testBit_aux :
    ∀ s : Bool, ∀ b : Fin 256, ∀ x : Fin 8, bitTest s b.val x.val = b.val.testBit (7 - x.val) := by
  decide

theorem bitTest_eq_testBit (s : Bool) (b x : Nat) (hb : b < 256) (hx : x < 8) :
    bitTest s b x = b.testBit (7 - x) :=
  bitTest_eq_testBit_aux s ⟨b, hb⟩ ⟨x, hx⟩

theorem mapM_ok {α β : Type} (f : α → Except LoadError β) (g : α → β) (l : List α)
    (h : ∀ a ∈ l, f a = .ok (g a)) : l.mapM f = .ok (l.map g) := by
  induction l with
  | nil => rfl
  | cons a l ih =>
    rw [List.mapM_cons, h a (List.mem_cons_self _ _),
      ih (fun b hb => h b (List.mem_cons_of_mem _ hb))]
    rfl

theorem flatMap_range_length {α : Type} (f : Nat → List α) (m n : Nat)
    (hlen : ∀ i, i < n → (f i).length = m) : ((List.range n).flatMap f).length = n * m := by
  induction n with
  | zero => simp
  | succ n ih =>
    rw [List.range_succ, List.flatMap_append, List.length_append,
      ih (fun i hi => hlen i (Nat.lt_succ_of_lt hi))]
    simp [hlen n (Nat.lt_succ_self n)]
    ring

theorem flatMap_range_getElem? {α : Type} (f : Nat → List α) (m n : Nat)
    (hlen : ∀ i, i < n → (f i).length = m) (i k : Nat) (hi : i < n) (hk : k < m) :
    ((List.range n).flatMap f)[i * m + k]? = (f i)[k]? := by
  induction n with
  | zero => omega
  | succ n ih =>
    have hl := flatMap_range_length f m n (fun i hi => hlen i (Nat.lt_succ_of_lt hi))
    rw [List.range_succ, List.flatMap_append]
    by_cases hin : i < n
    · have : i * m + k < n * m := by nlinarith
      rw [List.getElem?_append_left (by rw [hl]; exact this)]
      exact ih (fun i hi => hlen i (Nat.lt_succ_of_lt hi)) hin
    · have hi' : i = n := by omega
      subst hi'
      rw [List.getElem?_append_right (by rw [hl]; omega), hl]
      simp

theorem readChar_of_getElem? (bytes : List Nat) (off c : Nat) (h : bytes[off]? = some c) :
    readChar bytes off = .ok c := by
  simp [readChar, h]

theorem expandRow_ok (s : Bool) (bytes : List Nat) (off c : Nat) (h : bytes[off]? = some c) :
    expandRow s bytes off = .ok ((List.range FontSizeX).flatMap (pixelBytes s c)) := by
  unfold expandRow
  rw [mapM_ok _ (pixelBytes s c) _ (by
    intro x _
    rw [readChar_of_getElem? bytes off c h]
    rfl)]
  rfl

theorem expandGlyph_ok (s : Bool) (bytes : List Nat) (i : Nat) (row : Nat → Nat)
    (h : ∀ y, y < FontSizeY → bytes[4 + i * FontSizeY + y]? = some (row y)) :
    expandGlyph s bytes i = .ok ((List.range FontSizeY).flatMap (fun y =>
      (List.range FontSizeX).flatMap (pixelBytes s (row y)))) := by
  unfold expandGlyph
  rw [mapM_ok _ (fun y => (List.range FontSizeX).flatMap (pixelBytes s (row y))) _ (by
    intro y hy
    exact expandRow_ok s bytes _ _ (h y (List.mem_range.1 hy)))]
  rfl

theorem expandFont_ok (s : Bool) (bytes : List Nat) (glyph : Nat → Nat)
    (h : ∀ n, n < 256 * FontSizeY → bytes[4 + n]? = some (glyph n)) :
    expandFont s bytes = .ok ((List.range 256).flatMap (fun i =>
      (List.range FontSizeY).flatMap (fun y =>
        (List.range FontSizeX).flatMap (pixelBytes s (glyph (i * FontSizeY + y)))))) := by
  unfold expandFont
  rw [mapM_ok _ (fun i => (List.range FontSizeY).flatMap (fun y =>
      (List.range FontSizeX).flatMap (pixelBytes s (glyph (i * FontSizeY + y))))) _ (by
    intro i hi
    have hi' := List.mem_range.1 hi
    apply expandGlyph_ok s bytes i (fun y => glyph (i * FontSizeY + y))
    intro y hy
    rw [Nat.add_assoc]
    apply h
    simp only [FontSizeY] at *
    omega)]
  rfl

theorem pixelBytes_length (s : Bool) (c x : Nat) : (pixelBytes s c x).length = 4 := by
  unfold pixelBytes
  split_ifs <;> rfl

theorem pixelBytes_getElem? (s : Bool) (c x k : Nat) (hk : k < 4) :
    (pixelBytes s c x)[k]? = some (if bitTest s c x then 255 else 0) := by
  unfold pixelBytes
  interval_cases k <;> split_ifs <;> rfl

/-- The bytes of `pixels` for a font whose glyph bytes are given by `glyph`. -/
theorem expanded_getElem? (s : Bool) (glyph : Nat → Nat) (i r x k : Nat)
    (hi : i < 256) (hr : r < 16) (hx : x < 8) (hk : k < 4) :
    ((List.range 256).flatMap (fun i =>
      (List.range FontSizeY).flatMap (fun y =>
        (List.range FontSizeX).flatMap (pixelBytes s (glyph (i * FontSizeY + y))))))[
          ((i * 16 + r) * 8 + x) * 4 + k]?
      = some (if bitTest s (glyph (i * 16 + r)) x then 255 else 0) := by
  have hrow : ∀ c, ((List.range FontSizeX).flatMap (pixelBytes s c)).length = 8 * 4 :=
    fun c => flatMap_range_length _ 4 8 (fun x _ => pixelBytes_length s c x)
  have hglyph : ∀ j, ((List.range FontSizeY).flatMap (fun y =>
      (List.range FontSizeX).flatMap (pixelBytes s (glyph (j * FontSizeY + y))))).length
        = 16 * (8 * 4) :=
    fun j => flatMap_range_length _ (8 * 4) 16 (fun y _ => hrow _)
  have e : ((i * 16 + r) * 8 + x) * 4 + k = i * (16 * (8 * 4)) + (r * (8 * 4) + (x * 4 + k)) := by
    ring
  rw [e, flatMap_range_getElem? _ (16 * (8 * 4)) 256 (fun j _ => hglyph j) i _ hi (by omega)]
  show ((List.range 16).flatMap _)[r * (8 * 4) + (x * 4 + k)]? = _
  rw [flatMap_range_getElem? _ (8 * 4) 16 (fun y _ => hrow _) r _ hr (by omega)]
  show ((List.range 8).flatMap _)[x * 4 + k]? = _
  rw [flatMap_range_getElem? _ 4 8 (fun x _ => pixelBytes_length s _ x) x k hx hk]
  exact pixelBytes_getElem? s _ x k hk

theorem characterTextureAtlas_header_ok (s : Bool) (body : List Nat) :
    characterTextureAtlas s (0x36 :: 0x04 :: 2 :: 16 :: body)
      = expandFont s (0x36 :: 0x04 :: 2 :: 16 :: body) := by
  cases s <;>
    simp [characterTextureAtlas, readChar, assert, charToInt, FontSizeY, bind, Except.bind]

theorem expanded_length (s : Bool) (glyph : Nat → Nat) :
    ((List.range 256).flatMap (fun i =>
      (List.range FontSizeY).flatMap (fun y =>
        (List.range FontSizeX).flatMap (pixelBytes s (glyph (i * FontSizeY + y)))))).length
      = 131072 := by
  have hrow : ∀ c, ((List.range FontSizeX).flatMap (pixelBytes s c)).length = 8 * 4 :=
    fun c => flatMap_range_length _ 4 8 (fun x _ => pixelBytes_length s c x)
  have hglyph : ∀ j, ((List.range FontSizeY).flatMap (fun y =>
      (List.range FontSizeX).flatMap (pixelBytes s (glyph (j * FontSizeY + y))))).length
        = 16 * (8 * 4) :=
    fun j => flatMap_range_length _ (8 * 4) 16 (fun y _ => hrow _)
  exact flatMap_range_length _ (16 * (8 * 4)) 256 (fun j _ => hglyph j)

/-- C6: for a font resource made of the header `0x36, 0x04`, mode 2, glyph height 16, then
`256 * 16` glyph bytes (and whatever follows them), the loader produces a pixel buffer of
`width * height * 4 = 8 * (16 * 256) * 4 = 131072` bytes in which, for character code `i`,
row `r` and column `x`, the four bytes at offset `((i * 16 + r) * 8 + x) * 4` are all 255
when bit `7 - x` of glyph byte `i * 16 + r` is set and all 0 otherwise; so the first four
bytes of the band of glyph `i`, at offset `i * 512`, are all 255 exactly when the top-left
bit of the glyph is set, and all 0 when it is not. -/
theorem font_bitmap_expansion (s : Bool) (glyphs rest : List Nat)
    (hlen : glyphs.length = 256 * 16) (hbytes : ∀ b ∈ glyphs, b < 256) :
    ∃ pixels : List Nat,
      characterTextureAtlas s ([0x36, 0x04, 2, 16] ++ glyphs ++ rest) = .ok pixels ∧
      pixels.length = width * height * 4 ∧
      pixels.length = 8 * (16 * 256) * 4 ∧
      (∀ i r x k : Nat, i < 256 → r < 16 → x < 8 → k < 4 →
        pixels[((i * 16 + r) * 8 + x) * 4 + k]?
          = some (if (glyphs.getD (i * 16 + r) 0).testBit (7 - x) then 255 else 0)) ∧
      (∀ i k : Nat, i < 256 → k < 4 →
        pixels[i * 512 + k]? = some (if (glyphs.getD (i * 16) 0).testBit 7 then 255 else 0)) := by
  have hget : ∀ n, n < 256 * FontSizeY →
      (0x36 :: 0x04 :: 2 :: 16 :: (glyphs ++ rest))[4 + n]? = some (glyphs.getD n 0) := by
    intro n hn
    simp only [FontSizeY] at hn
    have hn' : n < glyphs.length := by omega
    rw [Nat.add_comm]
    simp only [List.getElem?_cons_succ]
    rw [List.getElem?_append_left hn', List.getD_eq_getElem?_getD, List.getElem?_eq_getElem hn']
    rfl
  have hlt : ∀ n, n < 256 * 16 → glyphs.getD n 0 < 256 := by
    intro n hn
    have hn' : n < glyphs.length := by omega
    rw [List.getD_eq_getElem?_getD, List.getElem?_eq_getElem hn']
    exact hbytes _ (List.getElem_mem _)
  have hpix : ∀ i r x k : Nat, i < 256 → r < 16 → x < 8 → k < 4 →
      ((List.range 256).flatMap (fun i =>
        (List.range FontSizeY).flatMap (fun y =>
          (List.range FontSizeX).flatMap
            (pixelBytes s (glyphs.getD (i * FontSizeY + y) 0)))))[
              ((i * 16 + r) * 8 + x) * 4 + k]?
        = some (if (glyphs.getD (i * 16 + r) 0).testBit (7 - x) then 255 else 0) := by
    intro i r x k hi hr hx hk
    rw [expanded_getElem? s (fun n => glyphs.getD n 0) i r x k hi hr hx hk,
      bitTest_eq_testBit s _ x (hlt _ (by omega)) hx]
  refine ⟨_, ?_, ?_, ?_, hpix, ?_⟩
  · have e : [0x36, 0x04, 2, 16] ++ glyphs ++ rest
        = 0x36 :: 0x04 :: 2 :: 16 :: (glyphs ++ rest) := by simp
    rw [e, characterTextureAtlas_header_ok, expandFont_ok s _ (fun n => glyphs.getD n 0) hget]
  · exact expanded_length s (fun n => glyphs.getD n 0)
  · exact expanded_length s (fun n => glyphs.getD n 0)
  · intro i k hi hk
    have h := hpix i 0 0 k hi (by decide) (by decide) hk
    have e : ((i * 16 + 0) * 8 + 0) * 4 + k = i * 512 + k := by ring
    rw [e] at h
    exact h

/-- C6 at a font whose glyph bytes are all `0xAA`, followed by three more bytes: the
first pixel is set and the second is not. -/
theorem font_bitmap_expansion_witness :
    ∃ pixels : List Nat,
      characterTextureAtlas true ([0x36, 0x04, 2, 16] ++ List.replicate 4096 0xAA ++ [1, 2, 3])
        = .ok pixels ∧
      pixels.length = 131072 ∧
      pixels[0]? = some 255 ∧ pixels[4]? = some 0 := by
  obtain ⟨pixels, h1, -, h3, h4, -⟩ :=
    font_bitmap_expansion true (List.replicate 4096 0xAA) [1, 2, 3]
      (by rw [List.length_replicate])
      (by intro b hb; rw [List.eq_of_mem_replicate hb]; decide)
  refine ⟨pixels, h1, h3, ?_, ?_⟩
  · have h := h4 0 0 0 0 (by decide) (by decide) (by decide) (by decide)
    rw [h]
    decide
  · have h := h4 0 0 1 0 (by decide) (by decide) (by decide) (by decide)
    rw [h]
    decide

/-- For a resource of at least four bytes, any mismatch in the magic bytes, the mode or
the glyph height makes an `assert` fail. -/
theorem characterTextureAtlas_header_mismatch (s : Bool) (b0 b1 b2 b3 : Nat) (body : List Nat)
    (h0 : b0 < 256) (h1 : b1 < 256) (h2 : b2 < 256) (h3 : b3 < 256)
    (hne : ¬ (b0 = 0x36 ∧ b1 = 0x04 ∧ b2 = 2 ∧ b3 = 16)) :
    characterTextureAtlas s (b0 :: b1 :: b2 :: b3 :: body) = .error .assertFailed := by
  have e0 : charToInt s b0 = 0x36 ↔ b0 = 0x36 := charToInt_eq_iff s b0 h0 0x36 (by decide)
  have e1 : charToInt s b1 = 0x04 ↔ b1 = 0x04 := charToInt_eq_iff s b1 h1 0x04 (by decide)
  have e2 : charToInt s b2 = 2 ↔ b2 = 2 := charToInt_eq_iff s b2 h2 2 (by decide)
  have e3 : charToInt s b3 % 18446744073709551616 = (FontSizeY : Int) ↔ b3 = 16 := by
    unfold charToInt FontSizeY
    split_ifs <;> norm_num <;> omega
  unfold characterTextureAtlas
  simp only [readChar, List.getElem?_cons_zero, List.getElem?_cons_succ]
  by_cases c0 : b0 = 0x36
  · have t0 := e0.2 c0
    by_cases c1 : b1 = 0x04
    · have t1 := e1.2 c1
      by_cases c3 : b3 = 16
      · have t3 := e3.2 c3
        by_cases c2 : b2 = 2
        · exact absurd ⟨c0, c1, c2, c3⟩ hne
        · have f2 : ¬ charToInt s b2 = 2 := fun h => c2 (e2.1 h)
          simp [assert, t0, t1, t3, f2, bind, Except.bind]
      · have f3 : ¬ charToInt s b3 % 18446744073709551616 = (FontSizeY : Int) :=
          fun h => c3 (e3.1 h)
        simp [assert, t0, t1, f3, bind, Except.bind]
    · have f1 : ¬ charToInt s b1 = 0x04 := fun h => c1 (e1.1 h)
      simp [assert, t0, f1, bind, Except.bind]
  · have f0 : ¬ charToInt s b0 = 0x36 := fun h => c0 (e0.1 h)
    simp [assert, f0, bind, Except.bind]

theorem mapM_range_error {β : Type} (f : Nat → Except LoadError β) (g : Nat → β) (e : LoadError)
    (n k : Nat) (hk : k < n) (h1 : ∀ i, i < k → f i = .ok (g i)) (h2 : f k = .error e) :
    (List.range n).mapM f = .error e := by
  induction n with
  | zero => omega
  | succ n ih =>
    rw [List.range_succ, List.mapM_append]
    by_cases hkn : k < n
    · rw [ih hkn]
      rfl
    · have hk' : k = n := by omega
      subst hk'
      rw [mapM_ok f g (List.range k) (fun a ha => h1 a (List.mem_range.1 ha))]
      simp only [List.mapM_cons, h2]
      rfl

theorem expandRow_error (s : Bool) (bytes : List Nat) (off : Nat) (h : bytes.length ≤ off) :
    expandRow s bytes off = .error .readPastEnd := by
  unfold expandRow
  rw [mapM_range_error _ (fun _ => []) .readPastEnd FontSizeX 0 (by decide)
    (fun i hi => absurd hi (Nat.not_lt_zero i))
    (by simp [readChar, List.getElem?_eq_none h])]
  rfl

/-- A resource with a valid header and fewer than `256 * 16` glyph bytes after it passes
the four `assert`s and is then read beyond its end. -/
theorem characterTextureAtlas_truncated (s : Bool) (body : List Nat)
    (hlen : body.length < 256 * 16) :
    characterTextureAtlas s (0x36 :: 0x04 :: 2 :: 16 :: body) = .error .readPastEnd := by
  rw [characterTextureAtlas_header_ok]
  unfold expandFont
  have hrow : ∀ n, n < body.length →
      expandRow s (0x36 :: 0x04 :: 2 :: 16 :: body) (4 + n)
        = .ok ((List.range FontSizeX).flatMap (pixelBytes s (body.getD n 0))) := by
    intro n hn
    apply expandRow_ok
    rw [Nat.add_comm]
    simp only [List.getElem?_cons_succ]
    rw [List.getD_eq_getElem?_getD, List.getElem?_eq_getElem hn]
    rfl
  rw [mapM_range_error _ (fun i => (List.range FontSizeY).flatMap (fun y =>
      (List.range FontSizeX).flatMap (pixelBytes s (body.getD (i * FontSizeY + y) 0))))
    .readPastEnd 256 (body.length / 16) (by omega) ?_ ?_]
  · rfl
  · intro i hi
    unfold expandGlyph
    rw [mapM_ok _ (fun y => (List.range FontSizeX).flatMap
      (pixelBytes s (body.getD (i * FontSizeY + y) 0))) _ (by
        intro y hy
        have hy' : y < 16 := List.mem_range.1 hy
        rw [Nat.add_assoc]
        apply hrow
        simp only [FontSizeY]
        omega)]
    rfl
  · unfold expandGlyph
    rw [mapM_range_error _ (fun y => (List.range FontSizeX).flatMap
        (pixelBytes s (body.getD (body.length / 16 * FontSizeY + y) 0)))
      .readPastEnd FontSizeY (body.length % 16) (by simp only [FontSizeY]; omega) ?_ ?_]
    · rfl
    · intro y hy
      rw [Nat.add_assoc]
      apply hrow
      simp only [FontSizeY]
      omega
    · apply expandRow_error
      simp only [FontSizeY, List.length_cons]
      omega

/-- C10, at the failing inputs: a resource that stops after a valid header, or one glyph
byte short of a whole font, passes the four `assert`s and is then read beyond its end, and
an empty resource is read beyond its end at the first header byte; in no case does an
`assert` fail. -/
theorem font_validation_truncated :
    (∀ s : Bool, characterTextureAtlas s [0x36, 0x04, 2, 16] = .error .readPastEnd) ∧
    (∀ s : Bool, characterTextureAtlas s ([0x36, 0x04, 2, 16] ++ List.replicate 4095 0)
      = .error .readPastEnd) ∧
    (∀ s : Bool, characterTextureAtlas s [] = .error .readPastEnd) ∧
    (∀ s : Bool, characterTextureAtlas s [0x36, 0x04, 2, 16] ≠ .error .assertFailed) ∧
    (∀ s : Bool, characterTextureAtlas s ([0x36, 0x04, 2, 16] ++ List.replicate 4095 0)
      ≠ .error .assertFailed) ∧
    (∀ s : Bool, characterTextureAtlas s [] ≠ .error .assertFailed) := by
  have h4 : ∀ s : Bool, characterTextureAtlas s [0x36, 0x04, 2, 16] = .error .readPastEnd :=
    fun s => characterTextureAtlas_truncated s [] (by decide)
  have h1 : ∀ s : Bool,
      characterTextureAtlas s ([0x36, 0x04, 2, 16] ++ List.replicate 4095 0)
        = .error .readPastEnd :=
    fun s => characterTextureAtlas_truncated s (List.replicate 4095 0)
      (by rw [List.length_replicate]; decide)
  have h0 : ∀ s : Bool, characterTextureAtlas s [] = .error .readPastEnd := fun s => rfl
  refine ⟨h4, h1, h0, ?_, ?_, ?_⟩
  · intro s
    rw [h4 s]
    exact fun h => by cases h
  · intro s
    rw [h1 s]
    exact fun h => by cases h
  · intro s
    rw [h0 s]
    exact fun h => by cases h

/-! ## Theorems: atlas row selection -/

/-- C7, counterexample: where `char` is signed, the cell with byte value 200 is passed as
the selector `-56`, not 200, and the vertical texture coordinate of the top of its quad is
`-56 / 256`, below the band of code 200. -/
theorem atlas_row_selection_counterexample :
    (renderWalk true 0 (0, 0) [200]).drawn = [⟨-56, 0, 0⟩] ∧
    (-56 : Int) ≠ 200 ∧
    vTexCoordY 0 (-56) < (200 : ℚ) / 256 := by
  refine ⟨by decide, by decide, ?_⟩
  unfold vTexCoordY
  norm_num

/-- C7, as amended: for a byte value `code` in `0..255` other than `'\n'`, `'\r'`, `'\t'`
stored in the buffer, the walk passes the integer promotion of the `char` cell as the
selector of its quad. That is `code` itself for codes `0..127`, and for all codes where
`char` is unsigned; the vertex stage then computes `(local_y + code) / 256`, inside the band
`[code / 256, (code + 1) / 256]`. For codes `128..255` where `char` is signed it is
`code - 256`, and the vertex stage computes `(local_y + code) / 256 - 1`, one whole texture
height below that band. In every case the selector is congruent to `code` modulo 256. -/
theorem atlas_row_selection (s : Bool) (u : Int) (p : Int × Int) (pre post : List Nat)
    (code : Nat) (hpre : ∀ c ∈ pre, c < 256) (hcode : code < 256)
    (h10 : code ≠ 10) (h13 : code ≠ 13) (h9 : code ≠ 9) :
    ∃ q : Quad,
      (renderWalk s u p (pre ++ code :: post)).drawn[quadCount pre]? = some q ∧
      q.uCharacter = charToInt s code ∧
      q.uCharacter % 256 = (code : Int) ∧
      ((s = false ∨ code < 128) →
        q.uCharacter = (code : Int) ∧
        ∀ localY : Int, localY = 0 ∨ localY = 1 →
          vTexCoordY localY q.uCharacter = ((localY : ℚ) + (code : ℚ)) / 256 ∧
          (code : ℚ) / 256 ≤ vTexCoordY localY q.uCharacter ∧
          vTexCoordY localY q.uCharacter ≤ ((code : ℚ) + 1) / 256) ∧
      ((s = true ∧ 128 ≤ code) →
        q.uCharacter = (code : Int) - 256 ∧
        ∀ localY : Int, localY = 0 ∨ localY = 1 →
          vTexCoordY localY q.uCharacter = ((localY : ℚ) + (code : ℚ)) / 256 - 1) := by
  have hj : 0 < quadsOfByte code := by simp [quadsOfByte, h10, h13, h9]
  have hq := renderWalk_quad s u p pre code post 0 hpre hcode hj
  rw [Nat.add_zero, if_neg h9] at hq
  refine ⟨_, hq, rfl, ?_, ?_, ?_⟩
  · show charToInt s code % 256 = (code : Int)
    unfold charToInt
    split_ifs <;> omega
  · intro hs
    have hc : charToInt s code = (code : Int) := by
      unfold charToInt
      rw [if_neg]
      rintro ⟨h1, h2⟩
      rcases hs with hs | hs
      · rw [hs] at h1; exact Bool.noConfusion h1
      · omega
    refine ⟨hc, ?_⟩
    intro localY hl
    show vTexCoordY localY (charToInt s code) = _ ∧ _ ∧ _
    rw [hc]
    unfold vTexCoordY
    have h256 : (0 : ℚ) < 256 := by norm_num
    refine ⟨by push_cast; rfl, ?_, ?_⟩
    · rw [div_le_div_iff_of_pos_right h256]
      rcases hl with hl | hl <;> rw [hl] <;> push_cast <;> linarith
    · rw [div_le_div_iff_of_pos_right h256]
      rcases hl with hl | hl <;> rw [hl] <;> push_cast <;> linarith
  · rintro ⟨hs, hge⟩
    have hc : charToInt s code = (code : Int) - 256 := by
      unfold charToInt
      rw [if_pos ⟨hs, hge⟩]
    refine ⟨hc, ?_⟩
    intro localY _
    show vTexCoordY localY (charToInt s code) = _
    rw [hc]
    unfold vTexCoordY
    push_cast
    ring

/-- C7 at the buffer `a`, newline, byte 200, `b` where `char` is signed. -/
theorem atlas_row_selection_witness :
    ∃ q : Quad,
      (renderWalk true 0 (0, 0) ([97, 10] ++ 200 :: [98])).drawn[quadCount [97, 10]]? = some q ∧
      q.uCharacter = charToInt true 200 ∧
      q.uCharacter % 256 = ((200 : Nat) : Int) ∧
      ((true = false ∨ 200 < 128) →
        q.uCharacter = ((200 : Nat) : Int) ∧
        ∀ localY : Int, localY = 0 ∨ localY = 1 →
          vTexCoordY localY q.uCharacter = ((localY : ℚ) + ((200 : Nat) : ℚ)) / 256 ∧
          ((200 : Nat) : ℚ) / 256 ≤ vTexCoordY localY q.uCharacter ∧
          vTexCoordY localY q.uCharacter ≤ (((200 : Nat) : ℚ) + 1) / 256) ∧
      ((true = true ∧ 128 ≤ 200) →
        q.uCharacter = ((200 : Nat) : Int) - 256 ∧
        ∀ localY : Int, localY = 0 ∨ localY = 1 →
          vTexCoordY localY q.uCharacter = ((localY : ℚ) + ((200 : Nat) : ℚ)) / 256 - 1) :=
  atlas_row_selection true 0 (0, 0) [97, 10] [98] 200 (by decide) (by decide) (by decide)
    (by decide) (by decide)

end TextEditor
